import Mathlib

/-!
# Verification of the JSON-viewer core

Shallow embedding of the JSON-viewer application.  JavaScript strings are
modelled as `List Char` (Lean `Char` ranges over Unicode scalar values, so
an astral character that JavaScript stores as a surrogate pair is one
`Char` here).  The source functions are translated definition by
definition:

* `pointerFromSegments`, `segToPointer` — the pointer encoding of the
  Form viewer (`src/unnamed/part_000`);
* `collectExpandablePointers`, `expandAll`, `toggle`, `ensureOpen`,
  `collapseAll` — the expand-state operations of the Form viewer;
* `findMatches`, `pathJoin` — the search engine (`src/app/page.tsx`);
* `safeJsonParse`, `formatJson`, `minifyJson` — the parse/format/minify
  layer (`src/app/page.tsx`); the underlying `JSON.parse` /
  `JSON.stringify` builtins are not repository code and are modelled
  from the spec;
* `GETvalidate` — the validation phase of the remote-fetch proxy
  (`src/unnamed/part_000`).
-/

namespace JsonViewer

/-- JavaScript strings, modelled as lists of Unicode scalar values. -/
abbrev JStr := List Char

/-- Uppercase hexadecimal digit (`0`–`9`, `A`–`F`) for `n < 16`. -/
def hexDigit (n : Nat) : Char :=
  if n < 10 then Char.ofNat (48 + n) else Char.ofNat (55 + n)

/-- UTF-8 byte sequence of a code point, as `encodeURIComponent` emits it. -/
def utf8Bytes (n : Nat) : List Nat :=
  if n < 0x80 then [n]
  else if n < 0x800 then [0xC0 + n / 64, 0x80 + n % 64]
  else if n < 0x10000 then [0xE0 + n / 4096, 0x80 + n / 64 % 64, 0x80 + n % 64]
  else [0xF0 + n / 262144, 0x80 + n / 4096 % 64, 0x80 + n / 64 % 64, 0x80 + n % 64]

/-- Percent-encoding of one byte: `%XY` with uppercase hex. -/
def pctByte (b : Nat) : List Char := ['%', hexDigit (b / 16), hexDigit (b % 16)]

/-- The characters `encodeURIComponent` leaves unescaped:
`A–Z a–z 0–9 - _ . ! ~ * ' ( )`. -/
def uriUnreserved (c : Char) : Bool :=
  c.isAlpha || c.isDigit ||
    (let b := c.toNat
     b = 45 || b = 95 || b = 46 || b = 33 || b = 126 || b = 42 ||
       b = 39 || b = 40 || b = 41)

/-- `encodeURIComponent` on a single character: unreserved characters pass
through, everything else becomes the percent-encoded UTF-8 bytes. -/
def encodeURIComponentChar (c : Char) : List Char :=
  if uriUnreserved c then [c] else (utf8Bytes c.toNat).flatMap pctByte

/-- JavaScript `encodeURIComponent`. -/
def encodeURIComponent (s : JStr) : JStr := s.flatMap encodeURIComponentChar

/-- A path segment: an object key or an array index (source type `Seg`). -/
inductive Seg where
  | key (s : JStr)
  | idx (n : Nat)
deriving DecidableEq, Repr

/-- JavaScript `String(seg)`: a key renders as itself, an index as its
decimal digits. -/
def renderSeg : Seg → JStr
  | .key s => s
  | .idx n => Nat.toDigits 10 n

/-- Source `segToPointer`: `encodeURIComponent(String(seg))`. -/
def segToPointer (seg : Seg) : JStr := encodeURIComponent (renderSeg seg)

/-- The reserved root pointer `"/"`. -/
def rootPointer : JStr := ['/']

/-- `Array.prototype.join('/')`: concatenate with a single `'/'` between
consecutive elements. -/
def joinSlash : List JStr → JStr
  | [] => []
  | [x] => x
  | x :: y :: xs => x ++ '/' :: joinSlash (y :: xs)

/-- Source `pointerFromSegments`: the root path maps to `"/"`, a non-root
path to `'/' ++ segs.map(segToPointer).join('/')`. -/
def pointerFromSegments (segs : List Seg) : JStr :=
  if segs = [] then ['/']
  else '/' :: joinSlash (segs.map segToPointer)

/-! ## Injectivity of the pointer encoding -/

theorem char_toNat_lt (c : Char) : c.toNat < 0x110000 := by
  rcases c.valid with h | h
  · exact Nat.lt_trans h (by norm_num)
  · exact h.2

theorem utf8Bytes_ne_nil (n : Nat) : utf8Bytes n ≠ [] := by
  unfold utf8Bytes
  split_ifs <;> simp

theorem utf8Bytes_lt256 (n : Nat) (hn : n < 0x110000) :
    ∀ b ∈ utf8Bytes n, b < 256 := by
  unfold utf8Bytes
  split_ifs with h1 h2 h3 <;> intro b hb <;> simp only [List.mem_cons,
    List.mem_singleton, List.not_mem_nil, or_false] at hb <;> omega

theorem utf8Bytes_len_of_head (m n : Nat)
    (h : (utf8Bytes m).head? = (utf8Bytes n).head?) :
    (utf8Bytes m).length = (utf8Bytes n).length := by
  unfold utf8Bytes at h ⊢
  split_ifs at h ⊢ <;> simp_all <;> omega

theorem utf8Bytes_inj (m n : Nat) (h : utf8Bytes m = utf8Bytes n) : m = n := by
  unfold utf8Bytes at h
  split_ifs at h <;> simp_all <;> omega

theorem hexDigit_inj_fin : ∀ a b : Fin 16, hexDigit a = hexDigit b → a = b := by
  decide

theorem hexDigit_inj (a b : Nat) (ha : a < 16) (hb : b < 16)
    (h : hexDigit a = hexDigit b) : a = b := by
  have := hexDigit_inj_fin ⟨a, ha⟩ ⟨b, hb⟩ h
  simpa [Fin.ext_iff] using this

theorem hexDigit_ne_slash : ∀ a : Fin 16, hexDigit a ≠ '/' := by decide

theorem hexDigit_ne_pct : ∀ a : Fin 16, hexDigit a ≠ '%' := by decide

/-- Percent-encoding of equal-length byte lists cancels. -/
theorem pctFlat_cancel : ∀ (bs1 bs2 : List Nat) (r1 r2 : List Char),
    bs1.length = bs2.length → (∀ b ∈ bs1, b < 256) → (∀ b ∈ bs2, b < 256) →
    bs1.flatMap pctByte ++ r1 = bs2.flatMap pctByte ++ r2 →
    bs1 = bs2 ∧ r1 = r2 := by
  intro bs1
  induction bs1 with
  | nil =>
    intro bs2 r1 r2 hlen _ _ heq
    cases bs2 with
    | nil => simpa using heq
    | cons b t => simp at hlen
  | cons b1 t1 ih =>
    intro bs2 r1 r2 hlen hb1 hb2 heq
    cases bs2 with
    | nil => simp at hlen
    | cons b2 t2 =>
      simp only [List.flatMap_cons, pctByte, List.append_assoc, List.cons_append,
        List.nil_append, List.cons.injEq] at heq
      obtain ⟨-, hhi, hlo, hrest⟩ := heq
      have hb1' : b1 < 256 := hb1 b1 (by simp)
      have hb2' : b2 < 256 := hb2 b2 (by simp)
      have e1 : b1 / 16 = b2 / 16 :=
        hexDigit_inj _ _ (by omega) (by omega) hhi
      have e2 : b1 % 16 = b2 % 16 :=
        hexDigit_inj _ _ (by omega) (by omega) hlo
      have hb : b1 = b2 := by omega
      obtain ⟨ht, hr⟩ := ih t2 r1 r2 (by simpa using hlen)
        (fun b hb => hb1 b (by simp [hb])) (fun b hb => hb2 b (by simp [hb]))
        (by simpa using hrest)
      exact ⟨by rw [hb, ht], hr⟩

theorem uriUnreserved_pct : uriUnreserved '%' = false := by decide

theorem uriUnreserved_slash : uriUnreserved '/' = false := by decide

/-- One encoded character cancels on the left of an append. -/
theorem encChar_cancel (c1 c2 : Char) (r1 r2 : List Char)
    (heq : encodeURIComponentChar c1 ++ r1 = encodeURIComponentChar c2 ++ r2) :
    c1 = c2 ∧ r1 = r2 := by
  unfold encodeURIComponentChar at heq
  by_cases h1 : uriUnreserved c1 <;> by_cases h2 : uriUnreserved c2 <;>
    simp only [h1, h2, if_true, if_false, Bool.false_eq_true] at heq
  · simpa using heq
  · -- c1 unescaped, c2 escaped: head forces c1 = '%', impossible
    exfalso
    obtain ⟨b, t, hbt⟩ := List.exists_cons_of_ne_nil (utf8Bytes_ne_nil c2.toNat)
    rw [hbt] at heq
    simp only [List.flatMap_cons, pctByte, List.cons_append, List.append_assoc,
      List.singleton_append, List.cons.injEq] at heq
    have : c1 = '%' := heq.1
    rw [this] at h1
    exact absurd h1 (by simp [uriUnreserved_pct])
  · exfalso
    obtain ⟨b, t, hbt⟩ := List.exists_cons_of_ne_nil (utf8Bytes_ne_nil c1.toNat)
    rw [hbt] at heq
    simp only [List.flatMap_cons, pctByte, List.cons_append, List.append_assoc,
      List.singleton_append, List.cons.injEq] at heq
    have : '%' = c2 := heq.1
    rw [← this] at h2
    exact absurd h2 (by simp [uriUnreserved_pct])
  · -- both escaped
    obtain ⟨b1, t1, h1'⟩ := List.exists_cons_of_ne_nil (utf8Bytes_ne_nil c1.toNat)
    obtain ⟨b2, t2, h2'⟩ := List.exists_cons_of_ne_nil (utf8Bytes_ne_nil c2.toNat)
    have hlt1 := utf8Bytes_lt256 c1.toNat (char_toNat_lt c1)
    have hlt2 := utf8Bytes_lt256 c2.toNat (char_toNat_lt c2)
    have hb1 : b1 < 256 := hlt1 b1 (by rw [h1']; simp)
    have hb2 : b2 < 256 := hlt2 b2 (by rw [h2']; simp)
    -- first byte agrees
    have hhead : b1 = b2 := by
      rw [h1', h2'] at heq
      simp only [List.flatMap_cons, pctByte, List.cons_append, List.append_assoc,
        List.cons.injEq] at heq
      obtain ⟨-, hhi, hlo, -⟩ := heq
      have e1 : b1 / 16 = b2 / 16 := hexDigit_inj _ _ (by omega) (by omega) hhi
      have e2 : b1 % 16 = b2 % 16 := hexDigit_inj _ _ (by omega) (by omega) hlo
      omega
    have hlen : (utf8Bytes c1.toNat).length = (utf8Bytes c2.toNat).length := by
      apply utf8Bytes_len_of_head
      rw [h1', h2', hhead]
      simp
    obtain ⟨hbs, hr⟩ := pctFlat_cancel _ _ _ _ hlen hlt1 hlt2 heq
    refine ⟨?_, hr⟩
    have hn : c1.toNat = c2.toNat := utf8Bytes_inj _ _ hbs
    calc c1 = Char.ofNat c1.toNat := (Char.ofNat_toNat c1).symm
      _ = Char.ofNat c2.toNat := by rw [hn]
      _ = c2 := Char.ofNat_toNat c2

theorem encChar_ne_nil (c : Char) : encodeURIComponentChar c ≠ [] := by
  unfold encodeURIComponentChar
  split
  · simp
  · obtain ⟨b, t, h⟩ := List.exists_cons_of_ne_nil (utf8Bytes_ne_nil c.toNat)
    rw [h]
    simp [pctByte]

theorem encodeURIComponent_inj : ∀ s1 s2 : JStr,
    encodeURIComponent s1 = encodeURIComponent s2 → s1 = s2 := by
  intro s1
  induction s1 with
  | nil =>
    intro s2 h
    cases s2 with
    | nil => rfl
    | cons c t =>
      exfalso
      simp only [encodeURIComponent, List.flatMap_nil, List.flatMap_cons] at h
      exact encChar_ne_nil c (List.append_eq_nil.mp h.symm).1
  | cons c1 t1 ih =>
    intro s2 h
    cases s2 with
    | nil =>
      exfalso
      simp only [encodeURIComponent, List.flatMap_nil, List.flatMap_cons] at h
      exact encChar_ne_nil c1 (List.append_eq_nil.mp h).1
    | cons c2 t2 =>
      simp only [encodeURIComponent, List.flatMap_cons] at h
      obtain ⟨hc, ht⟩ := encChar_cancel c1 c2 _ _ h
      rw [hc, ih t2 ht]

theorem slash_not_mem_encChar (c : Char) : '/' ∉ encodeURIComponentChar c := by
  unfold encodeURIComponentChar
  split_ifs with h
  · intro hm
    rw [List.mem_singleton] at hm
    rw [← hm] at h
    exact absurd h (by simp [uriUnreserved_slash])
  · intro hm
    rw [List.mem_flatMap] at hm
    obtain ⟨b, hb, hmem⟩ := hm
    have hb256 : b < 256 := utf8Bytes_lt256 c.toNat (char_toNat_lt c) b hb
    simp only [pctByte, List.mem_cons, List.not_mem_nil, or_false] at hmem
    rcases hmem with h1 | h2 | h3
    · exact absurd h1.symm (by decide)
    · exact hexDigit_ne_slash ⟨b / 16, by omega⟩ h2.symm
    · exact hexDigit_ne_slash ⟨b % 16, by omega⟩ h3.symm

theorem slash_not_mem_segToPointer (seg : Seg) : '/' ∉ segToPointer seg := by
  unfold segToPointer encodeURIComponent
  intro hm
  rw [List.mem_flatMap] at hm
  obtain ⟨c, -, hmem⟩ := hm
  exact slash_not_mem_encChar c hmem

/-- The number of slashes in a joined list of slash-free chunks is one less
than the number of chunks. -/
theorem joinSlash_count : ∀ xs : List JStr, xs ≠ [] →
    (∀ ch ∈ xs, '/' ∉ ch) → (joinSlash xs).count '/' = xs.length - 1 := by
  intro xs
  induction xs with
  | nil => intro h; exact absurd rfl h
  | cons x t ih =>
    intro _ hfree
    cases t with
    | nil =>
      simp only [joinSlash, List.length_singleton]
      exact List.count_eq_zero.mpr (hfree x (by simp))
    | cons y u =>
      have hx : (x : JStr).count '/' = 0 :=
        List.count_eq_zero.mpr (hfree x (by simp))
      have ht := ih (by simp) (fun ch hch => hfree ch (by simp [hch]))
      simp only [joinSlash, List.count_append, List.count_cons_self, hx, ht]
      simp [List.length_cons]

/-- Cancelling a slash-free chunk before an explicit slash. -/
theorem append_slash_cancel : ∀ (a b r1 r2 : JStr), '/' ∉ a → '/' ∉ b →
    a ++ '/' :: r1 = b ++ '/' :: r2 → a = b ∧ r1 = r2 := by
  intro a
  induction a with
  | nil =>
    intro b r1 r2 _ hb h
    cases b with
    | nil => simpa using h
    | cons c t =>
      exfalso
      simp only [List.nil_append, List.cons_append, List.cons.injEq] at h
      exact hb (h.1 ▸ List.mem_cons_self c t)
  | cons c t ih =>
    intro b r1 r2 ha hb h
    cases b with
    | nil =>
      exfalso
      simp only [List.cons_append, List.nil_append, List.cons.injEq] at h
      exact ha (h.1.symm ▸ List.mem_cons_self c t)
    | cons d u =>
      simp only [List.cons_append, List.cons.injEq] at h
      obtain ⟨hcd, hrest⟩ := h
      obtain ⟨htu, hr⟩ := ih u r1 r2 (fun hm => ha (List.mem_cons_of_mem c hm))
        (fun hm => hb (List.mem_cons_of_mem d hm)) hrest
      exact ⟨by rw [hcd, htu], hr⟩

/-- `join('/')` is injective on equally long lists of slash-free chunks. -/
theorem joinSlash_inj : ∀ xs ys : List JStr, xs.length = ys.length →
    (∀ ch ∈ xs, '/' ∉ ch) → (∀ ch ∈ ys, '/' ∉ ch) →
    joinSlash xs = joinSlash ys → xs = ys := by
  intro xs
  induction xs with
  | nil =>
    intro ys hlen _ _ _
    cases ys with
    | nil => rfl
    | cons y u => simp at hlen
  | cons x t ih =>
    intro ys hlen hfx hfy heq
    cases ys with
    | nil => simp at hlen
    | cons y u =>
      cases t with
      | nil =>
        cases u with
        | nil => simpa [joinSlash] using heq
        | cons z w => simp at hlen
      | cons a t' =>
        cases u with
        | nil => simp at hlen
        | cons b u' =>
          simp only [joinSlash] at heq
          obtain ⟨hxy, hrest⟩ := append_slash_cancel x y _ _
            (hfx x (by simp)) (hfy y (by simp)) heq
          have := ih (b :: u') (by simpa using hlen)
            (fun ch hch => hfx ch (by simp [List.mem_cons] at hch ⊢; tauto))
            (fun ch hch => hfy ch (by simp [List.mem_cons] at hch ⊢; tauto))
            hrest
          rw [hxy, this]

/-- Claim C1 (amended).  The root path maps to the reserved pointer `"/"`,
and the pointer encoding is injective on non-root paths whose rendered
segment texts differ: if `p1` and `p2` are nonempty and the sequences
`p1.map String(·)` and `p2.map String(·)` are distinct, the pointers
differ.  (Injectivity fails exactly when the rendered texts coincide: an
index collides with the key spelling its decimal digits, and the path
consisting of one empty key collides with the root.) -/
theorem pointer_encoding_amended :
    pointerFromSegments [] = rootPointer ∧
    ∀ p1 p2 : List Seg, p1 ≠ [] → p2 ≠ [] →
      p1.map renderSeg ≠ p2.map renderSeg →
      pointerFromSegments p1 ≠ pointerFromSegments p2 := by
  constructor
  · rfl
  · intro p1 p2 h1 h2 hne heq
    rw [pointerFromSegments, pointerFromSegments, if_neg h1, if_neg h2] at heq
    have hjoin : joinSlash (p1.map segToPointer) = joinSlash (p2.map segToPointer) :=
      (List.cons.injEq _ _ _ _ ▸ heq).2
    have hfree1 : ∀ ch ∈ p1.map segToPointer, '/' ∉ ch := by
      intro ch hch
      obtain ⟨seg, -, rfl⟩ := List.mem_map.mp hch
      exact slash_not_mem_segToPointer seg
    have hfree2 : ∀ ch ∈ p2.map segToPointer, '/' ∉ ch := by
      intro ch hch
      obtain ⟨seg, -, rfl⟩ := List.mem_map.mp hch
      exact slash_not_mem_segToPointer seg
    have hlen : (p1.map segToPointer).length = (p2.map segToPointer).length := by
      have c1 := joinSlash_count (p1.map segToPointer) (by simpa using h1) hfree1
      have c2 := joinSlash_count (p2.map segToPointer) (by simpa using h2) hfree2
      rw [hjoin, c2] at c1
      simp only [List.length_map] at c1 ⊢
      have l1 : p1.length ≠ 0 := fun h => h1 (List.length_eq_zero.mp h)
      have l2 : p2.length ≠ 0 := fun h => h2 (List.length_eq_zero.mp h)
      omega
    have hmaps := joinSlash_inj _ _ hlen hfree1 hfree2 hjoin
    apply hne
    have : p1.map (encodeURIComponent ∘ renderSeg) =
        p2.map (encodeURIComponent ∘ renderSeg) := by
      simpa [segToPointer, Function.comp] using hmaps
    rw [← List.map_map, ← List.map_map] at this
    exact List.map_injective_iff.mpr
      (fun a b h => encodeURIComponent_inj a b h) this

/-- Claim C1 counterexample: the pointer encoding is not injective on all
distinct paths.  The index `5` collides with the key `"5"`, and the path
consisting of one empty key collides with the root path. -/
theorem pointer_encoding_counterexample :
    ([Seg.idx 5] ≠ [Seg.key ['5']] ∧
      pointerFromSegments [Seg.idx 5] = pointerFromSegments [Seg.key ['5']]) ∧
    ([Seg.key []] ≠ ([] : List Seg) ∧
      pointerFromSegments [Seg.key []] = pointerFromSegments []) := by
  constructor
  · exact ⟨by decide, by decide⟩
  · exact ⟨by decide, by decide⟩

/-- Witness for the amended claim C1 at the concrete paths `["a"]`, `["b"]`. -/
theorem pointer_encoding_amended_witness :
    pointerFromSegments [Seg.key ['a']] ≠ pointerFromSegments [Seg.key ['b']] :=
  pointer_encoding_amended.2 [Seg.key ['a']] [Seg.key ['b']]
    (by decide) (by decide) (by decide)

/-! ## The JSON value model -/

/-- A parsed JSON value.  Numbers are represented by their numeral token
(the text matched by the number grammar): the repository delegates number
semantics to the JavaScript engine's float64, which a shallow embedding
does not model, and every claim here depends only on the token. -/
inductive Json where
  | null
  | bool (b : Bool)
  | num (tok : JStr)
  | str (s : JStr)
  | arr (items : List Json)
  | obj (entries : List (JStr × Json))

/-- Source `isExpandable`: `v !== null && typeof v === 'object'`, i.e.
arrays and objects. -/
def isExpandable : Json → Bool
  | .arr _ => true
  | .obj _ => true
  | _ => false

/-! ## Expand state (Form viewer) -/

/-- A JavaScript `Set<string>` in insertion order. -/
abbrev StrSet := List JStr

/-- `Set.prototype.add`: append if not already present. -/
def setAdd (s : StrSet) (p : JStr) : StrSet := if p ∈ s then s else s ++ [p]

/-- `Set.prototype.delete`. -/
def setDelete (s : StrSet) (p : JStr) : StrSet := s.filter (· ≠ p)

mutual

/-- Source `collectExpandablePointers.walk`: return early when the set is
full or the node is not a container (`isExpandable`), otherwise add the
node's pointer and walk the children, breaking when the set fills up. -/
def walkExpand (limit : Nat) (node : Json) (segs : List Seg)
    (out : StrSet) : StrSet :=
  if limit ≤ out.length then out
  else
    match node with
    | .arr items => walkExpandArr limit items segs 0
        (setAdd out (pointerFromSegments segs))
    | .obj entries => walkExpandObj limit entries segs
        (setAdd out (pointerFromSegments segs))
    | _ => out

/-- The `for (let i = 0; ...)` loop over array children, with the
`if (out.size >= limit) break`. -/
def walkExpandArr (limit : Nat) (items : List Json) (segs : List Seg)
    (i : Nat) (out : StrSet) : StrSet :=
  match items with
  | [] => out
  | item :: rest =>
    let out' := walkExpand limit item (segs ++ [Seg.idx i]) out
    if limit ≤ out'.length then out'
    else walkExpandArr limit rest segs (i + 1) out'

/-- The `for (const k of Object.keys(node))` loop over object children. -/
def walkExpandObj (limit : Nat) (entries : List (JStr × Json))
    (segs : List Seg) (out : StrSet) : StrSet :=
  match entries with
  | [] => out
  | (k, v) :: rest =>
    let out' := walkExpand limit v (segs ++ [Seg.key k]) out
    if limit ≤ out'.length then out'
    else walkExpandObj limit rest segs out'

end

/-- Source `collectExpandablePointers(root, limit = 6000)`. -/
def collectExpandablePointers (root : Json) (limit : Nat := 6000) : StrSet :=
  walkExpand limit root [] []

/-- Source `expandAll`: collect up to 6000 container pointers, report
truncation (the toast condition `set.size >= 6000`), and add the root
pointer. -/
def expandAll (value : Json) : StrSet × Bool :=
  let set := collectExpandablePointers value 6000
  (setAdd set rootPointer, decide (6000 ≤ set.length))

/-- Source `toggle`: flip membership of the path's pointer, then re-add the
root pointer. -/
def toggle (segs : List Seg) (prev : StrSet) : StrSet :=
  let p := pointerFromSegments segs
  let next := if p ∈ prev then setDelete prev p else setAdd prev p
  setAdd next rootPointer

/-- Source `ensureOpen`: the root pointer plus the pointer of every
nonempty prefix `segs.slice(0, i + 1)`, all inserted into the set. -/
def ensureOpen (segs : List Seg) (prev : StrSet) : StrSet :=
  let pointers := rootPointer ::
    (List.range segs.length).map (fun i => pointerFromSegments (segs.take (i + 1)))
  pointers.foldl setAdd prev

/-- Source `collapseAll`: reset to the singleton root set. -/
def collapseAll : StrSet := [rootPointer]

theorem setAdd_mem_self (s : StrSet) (p : JStr) : p ∈ setAdd s p := by
  unfold setAdd
  split_ifs with h
  · exact h
  · simp

theorem setAdd_mem_of_mem {s : StrSet} {x : JStr} (p : JStr) (h : x ∈ s) :
    x ∈ setAdd s p := by
  unfold setAdd
  split_ifs
  · exact h
  · simp [h]

theorem foldl_setAdd_mono {x : JStr} : ∀ (ps : List JStr) (s : StrSet),
    x ∈ s → x ∈ ps.foldl setAdd s := by
  intro ps
  induction ps with
  | nil => intro s h; simpa using h
  | cons p t ih => intro s h; exact ih _ (setAdd_mem_of_mem p h)

theorem foldl_setAdd_mem_of_mem_list {ps : List JStr} {x : JStr}
    (h : x ∈ ps) : ∀ s : StrSet, x ∈ ps.foldl setAdd s := by
  induction ps with
  | nil => cases h
  | cons p t ih =>
    intro s
    rcases List.mem_cons.mp h with rfl | hm
    · exact foldl_setAdd_mono t _ (setAdd_mem_self s x)
    · exact ih hm _

/-- Claim C6.  After `ensureOpen(path)`, the pointer of every prefix of
`path` (the root included) is a member of the expanded set. -/
theorem ensureOpen_ancestors (segs : List Seg) (prev : StrSet) (q : List Seg)
    (hq : q <+: segs) : pointerFromSegments q ∈ ensureOpen segs prev := by
  unfold ensureOpen
  have htake : q = segs.take q.length := List.prefix_iff_eq_take.mp hq
  have hlen : q.length ≤ segs.length := hq.length_le
  rcases Nat.eq_zero_or_pos q.length with h0 | hpos
  · have hq0 : q = [] := List.length_eq_zero.mp h0
    subst hq0
    exact foldl_setAdd_mem_of_mem_list (by simp [pointerFromSegments, rootPointer]) prev
  · apply foldl_setAdd_mem_of_mem_list
    apply List.mem_cons_of_mem
    apply List.mem_map.mpr
    refine ⟨q.length - 1, List.mem_range.mpr (by omega), ?_⟩
    have : q.length - 1 + 1 = q.length := by omega
    rw [this, ← htake]

/-- Witness for claim C6: the prefix `["a"]` of the path `["a", 0]` is
opened by `ensureOpen`. -/
theorem ensureOpen_ancestors_witness :
    [Seg.key ['a']] <+: [Seg.key ['a'], Seg.idx 0] ∧
      pointerFromSegments [Seg.key ['a']] ∈
        ensureOpen [Seg.key ['a'], Seg.idx 0] [] :=
  ⟨by decide, ensureOpen_ancestors [Seg.key ['a'], Seg.idx 0] [] [Seg.key ['a']]
    (by decide)⟩

/-! ## The root-open invariant (claim C10) -/

/-- The expand-state operations of the Form viewer. -/
inductive ExpandOp where
  | toggle (segs : List Seg)
  | ensureOpen (segs : List Seg)
  | expandAll (value : Json)
  | collapseAll

/-- One expand-state transition. -/
def applyOp : ExpandOp → StrSet → StrSet
  | .toggle segs, s => toggle segs s
  | .ensureOpen segs, s => ensureOpen segs s
  | .expandAll v, _ => (expandAll v).1
  | .collapseAll, _ => collapseAll

/-- A sequence of expand-state transitions from a starting set. -/
def runOps (ops : List ExpandOp) (s : StrSet) : StrSet :=
  ops.foldl (fun s op => applyOp op s) s

theorem rootPointer_mem_applyOp (op : ExpandOp) (s : StrSet) :
    rootPointer ∈ applyOp op s := by
  cases op with
  | toggle segs => exact setAdd_mem_self _ _
  | ensureOpen segs =>
    exact foldl_setAdd_mem_of_mem_list (List.mem_cons_self _ _) s
  | expandAll v => exact setAdd_mem_self _ _
  | collapseAll => simp [applyOp, collapseAll]

/-- Claim C10.  Starting from the initial expanded set, the root pointer
survives any sequence of toggle / ensureOpen / expandAll / collapseAll
operations; in particular toggling the root path itself never removes it. -/
theorem root_always_open :
    (∀ ops : List ExpandOp, rootPointer ∈ runOps ops [rootPointer]) ∧
    (∀ s : StrSet, rootPointer ∈ toggle [] s) := by
  constructor
  · have key : ∀ (ops : List ExpandOp) (s : StrSet), rootPointer ∈ s →
        rootPointer ∈ runOps ops s := by
      intro ops
      induction ops with
      | nil => intro s h; simpa [runOps] using h
      | cons op t ih =>
        intro s _
        exact ih (applyOp op s) (rootPointer_mem_applyOp op s)
    exact fun ops => key ops [rootPointer] (by simp)
  · intro s
    exact setAdd_mem_self _ _

/-! ## The expand-all cap (claim C2) -/

theorem setAdd_length_le (s : StrSet) (p : JStr) :
    (setAdd s p).length ≤ s.length + 1 := by
  unfold setAdd
  split_ifs <;> simp

/-- The traversal never grows the set beyond the limit. -/
theorem walkExpand_length_le (limit : Nat) :
    ∀ (node : Json) (segs : List Seg) (out : StrSet),
      out.length ≤ limit → (walkExpand limit node segs out).length ≤ limit := by
  refine walkExpand.induct limit
    (fun node segs out => out.length ≤ limit →
      (walkExpand limit node segs out).length ≤ limit)
    (fun entries segs out => out.length ≤ limit →
      (walkExpandObj limit entries segs out).length ≤ limit)
    (fun items segs i out => out.length ≤ limit →
      (walkExpandArr limit items segs i out).length ≤ limit)
    ?_ ?_ ?_ ?_ ?_ ?_ ?_ ?_ ?_ ?_
  · intro t segs out hfull h
    cases t <;> simp [walkExpand, hfull, h]
  · intro segs out hfull items ih h
    rw [walkExpand, if_neg hfull]
    have hadd : (setAdd out (pointerFromSegments segs)).length ≤ limit := by
      have := setAdd_length_le out (pointerFromSegments segs)
      omega
    exact ih hadd
  · intro segs out hfull entries ih h
    rw [walkExpand, if_neg hfull]
    have hadd : (setAdd out (pointerFromSegments segs)).length ≤ limit := by
      have := setAdd_length_le out (pointerFromSegments segs)
      omega
    exact ih hadd
  · intro t segs out hfull hnarr hnobj h
    cases t with
    | arr items => exact (hnarr items rfl).elim
    | obj entries => exact (hnobj entries rfl).elim
    | null => simp [walkExpand, hfull, h]
    | bool b => simp [walkExpand, hfull, h]
    | num tok => simp [walkExpand, hfull, h]
    | str s => simp [walkExpand, hfull, h]
  · intro segs i out h
    rw [walkExpandArr]
    exact h
  · intro segs i out item rest out' hfull ih h
    have hfull' : limit ≤ (walkExpand limit item (segs ++ [Seg.idx i]) out).length :=
      hfull
    rw [walkExpandArr]
    simp only [if_pos hfull']
    exact ih h
  · intro segs i out item rest out' hfull ih1 ih2 h
    have hfull' : ¬limit ≤ (walkExpand limit item (segs ++ [Seg.idx i]) out).length :=
      hfull
    have hih2 : (walkExpand limit item (segs ++ [Seg.idx i]) out).length ≤ limit →
        (walkExpandArr limit rest segs (i + 1)
          (walkExpand limit item (segs ++ [Seg.idx i]) out)).length ≤ limit := ih2
    rw [walkExpandArr]
    simp only [if_neg hfull']
    exact hih2 (ih1 h)
  · intro segs out h
    rw [walkExpandObj]
    exact h
  · intro segs out k v rest out' hfull ih h
    have hfull' : limit ≤ (walkExpand limit v (segs ++ [Seg.key k]) out).length :=
      hfull
    rw [walkExpandObj]
    simp only [if_pos hfull']
    exact ih h
  · intro segs out k v rest out' hfull ih1 ih2 h
    have hfull' : ¬limit ≤ (walkExpand limit v (segs ++ [Seg.key k]) out).length :=
      hfull
    have hih2 : (walkExpand limit v (segs ++ [Seg.key k]) out).length ≤ limit →
        (walkExpandObj limit rest segs
          (walkExpand limit v (segs ++ [Seg.key k]) out)).length ≤ limit := ih2
    rw [walkExpandObj]
    simp only [if_neg hfull']
    exact hih2 (ih1 h)

/-- A document that is a chain of `k` nested single-element arrays: `k`
nested containers above a primitive leaf. -/
def nest : Nat → Json
  | 0 => .num ['0']
  | n + 1 => .arr [nest n]

/-- The pointer at depth `d` of the chain document. -/
def chainPtr (d : Nat) : JStr := pointerFromSegments (List.replicate d (Seg.idx 0))

theorem joinSlash_replicate_len :
    ∀ n, (joinSlash (List.replicate (n + 1) ['0'])).length = 2 * n + 1 := by
  intro n
  induction n with
  | zero => rfl
  | succ m ih =>
    have hstep : joinSlash (List.replicate (m + 2) ['0']) =
        ['0'] ++ '/' :: joinSlash (List.replicate (m + 1) ['0']) := rfl
    rw [hstep]
    simp only [List.length_append, List.length_cons, List.length_singleton,
      List.length_nil, ih]
    omega

theorem chainPtr_len (d : Nat) :
    (chainPtr d).length = if d = 0 then 1 else 2 * d := by
  cases d with
  | zero => rfl
  | succ n =>
    rw [if_neg (Nat.succ_ne_zero n)]
    unfold chainPtr pointerFromSegments
    rw [if_neg (by simp)]
    have hmap : (List.replicate (n + 1) (Seg.idx 0)).map segToPointer =
        List.replicate (n + 1) ['0'] := by
      rw [List.map_replicate]
      rfl
    rw [hmap]
    simp only [List.length_cons, joinSlash_replicate_len n]
    omega

theorem chainPtr_inj {a b : Nat} (h : chainPtr a = chainPtr b) : a = b := by
  have ha := chainPtr_len a
  have hb := chainPtr_len b
  rw [h, hb] at ha
  split_ifs at ha <;> omega

theorem chainPtr_zero : chainPtr 0 = rootPointer := rfl

/-- Walking the chain document appends exactly the next
`min k (6000 - out.length)` chain pointers. -/
theorem walkExpand_nest : ∀ (k d : Nat) (out : StrSet),
    (∀ j, chainPtr (d + j) ∉ out) →
    walkExpand 6000 (nest k) (List.replicate d (Seg.idx 0)) out =
      out ++ (List.range' d (min k (6000 - out.length))).map chainPtr := by
  intro k
  induction k with
  | zero =>
    intro d out _
    simp [nest, walkExpand]
  | succ k ih =>
    intro d out hout
    by_cases hfull : 6000 ≤ out.length
    · rw [show nest (k + 1) = .arr [nest k] from rfl, walkExpand, if_pos hfull]
      have h0 : 6000 - out.length = 0 := by omega
      simp [h0]
    · have hadd : setAdd out (pointerFromSegments (List.replicate d (Seg.idx 0))) =
          out ++ [chainPtr d] := by
        rw [setAdd, if_neg]
        · rfl
        · have := hout 0
          simpa [chainPtr] using this
      have hsegs : List.replicate d (Seg.idx 0) ++ [Seg.idx 0] =
          List.replicate (d + 1) (Seg.idx 0) := (List.replicate_succ' d _).symm
      have hstep := ih (d + 1) (out ++ [chainPtr d]) (by
        intro j
        rw [List.mem_append]
        push_neg
        constructor
        · have := hout (1 + j)
          rwa [show d + (1 + j) = d + 1 + j by omega] at this
        · rw [List.mem_singleton]
          intro hc
          have := chainPtr_inj hc
          omega)
      rw [show nest (k + 1) = .arr [nest k] from rfl, walkExpand, if_neg hfull]
      simp only [walkExpandArr]
      rw [hadd, hsegs, hstep]
      rw [ite_self]
      have hlen : (out ++ [chainPtr d]).length = out.length + 1 := by simp
      rw [hlen]
      have hmin : min (k + 1) (6000 - out.length) =
          min k (6000 - (out.length + 1)) + 1 := by omega
      rw [hmin, List.range'_succ]
      simp

/-- Claim C2.  On a document of 10,000 nested containers, `expandAll`
produces a set of exactly 6000 pointers, containing the root pointer, and
reports truncation.  In general the collection never exceeds the limit. -/
theorem expandAll_cap :
    (expandAll (nest 10000)).1.length = 6000 ∧
    rootPointer ∈ (expandAll (nest 10000)).1 ∧
    (expandAll (nest 10000)).2 = true ∧
    ∀ v : Json, (collectExpandablePointers v 6000).length ≤ 6000 := by
  have hcollect : collectExpandablePointers (nest 10000) 6000 =
      (List.range' 0 6000).map chainPtr := by
    have h1 := walkExpand_nest 10000 0 [] (fun j => by simp)
    rw [List.replicate_zero] at h1
    norm_num at h1
    rw [collectExpandablePointers, h1]
  have hroot : rootPointer ∈ (List.range' 0 6000).map chainPtr := by
    apply List.mem_map.mpr
    exact ⟨0, by simp [List.mem_range'_1], chainPtr_zero⟩
  have hlen : ((List.range' 0 6000).map chainPtr).length = 6000 := by
    simp
  refine ⟨?_, ?_, ?_, ?_⟩
  · simp only [expandAll]
    rw [hcollect, setAdd, if_pos hroot, hlen]
  · simp only [expandAll]
    exact setAdd_mem_self _ _
  · simp only [expandAll]
    rw [hcollect, hlen]
    decide
  · intro v
    exact walkExpand_length_le 6000 v [] [] (by simp)

/-! ## Search (`findMatches` in `src/app/page.tsx`) -/

/-- JavaScript string whitespace for `trim` (the common code points). -/
def isJsWs (c : Char) : Bool :=
  c.toNat = 9 || c.toNat = 10 || c.toNat = 11 || c.toNat = 12 ||
    c.toNat = 13 || c.toNat = 32 || c.toNat = 160

/-- `String.prototype.trim`. -/
def jsTrim (s : JStr) : JStr :=
  ((s.dropWhile isJsWs).reverse.dropWhile isJsWs).reverse

/-- `String.prototype.toLowerCase` (accurate on ASCII, which is all the
claims exercise). -/
def jsLower (s : JStr) : JStr := s.map Char.toLower

/-- `String.prototype.includes`: substring containment. -/
def jsIncludes : JStr → JStr → Bool
  | [], needle => needle.isEmpty
  | c :: t, needle => needle.isPrefixOf (c :: t) || jsIncludes t needle

/-- First character class of the identifier regex `^[A-Za-z_$]`. -/
def identStart (c : Char) : Bool := c.isAlpha || c = '_' || c = '$'

/-- Later character class `[A-Za-z0-9_$]`. -/
def identChar (c : Char) : Bool := c.isAlpha || c.isDigit || c = '_' || c = '$'

/-- The test `/^[A-Za-z_$][A-Za-z0-9_$]*$/.test(key)`. -/
def isIdentLike : JStr → Bool
  | [] => false
  | c :: t => identStart c && t.all identChar

/-- `String(key).replace(/"/g, '\\"')`. -/
def escQuotes (s : JStr) : JStr :=
  s.flatMap (fun c => if c = '"' then ['\\', '"'] else [c])

/-- Source `pathJoin`: numeric keys render as `parent[i]`; identifier-like
text keys as `parent.key` (or bare `key` at the root); other text keys as
`parent["escaped"]`. -/
def pathJoin (parent : JStr) (key : Seg) : JStr :=
  match key with
  | .idx n => parent ++ '[' :: Nat.toDigits 10 n ++ [']']
  | .key s =>
    if isIdentLike s then
      if parent = [] then s else parent ++ '.' :: s
    else parent ++ '[' :: '"' :: escQuotes s ++ ['"', ']']

/-- A search hit (source type `Match`). -/
inductive MatchKind where
  | key
  | value
deriving DecidableEq, Repr

/-- Source `Match` record. -/
structure Match where
  path : JStr
  kind : MatchKind
  preview : JStr
deriving DecidableEq, Repr

/-- Source `push`: append only while below the cap. -/
def pushMatch (maxMatches : Nat) (out : List Match) (m : Match) : List Match :=
  if out.length < maxMatches then out ++ [m] else out

/-- The text `String(node)` of a leaf value (numbers are their tokens). -/
def leafText : Json → JStr
  | .bool true => "true".data
  | .bool false => "false".data
  | .num tok => tok
  | .str s => s
  | _ => []

/-- Source `summarize`: preview of a value, strings truncated at 160
characters with an ellipsis. -/
def summarize (v : Json) : JStr :=
  match v with
  | .null => "null".data
  | .str s => if 160 < s.length then s.take 160 ++ ['…'] else s
  | .num tok => tok
  | .bool b => if b then "true".data else "false".data
  | .arr items => "Array(".data ++ Nat.toDigits 10 items.length ++ ")".data
  | .obj entries => "Object(".data ++ Nat.toDigits 10 entries.length ++ ")".data

mutual

/-- Source `findMatches.visit`: stop when the cap is reached, skip null
leaves, recurse through arrays (no break) and objects (key test, then
child, with break), and test leaf text for containment. -/
def visitMatch (q : JStr) (maxMatches : Nat) (node : Json) (path : JStr)
    (out : List Match) : List Match :=
  if maxMatches ≤ out.length then out
  else
    match node with
    | .null => out
    | .arr items => visitMatchArr q maxMatches items path 0 out
    | .obj entries => visitMatchObj q maxMatches entries path out
    | leaf =>
      if jsIncludes (jsLower (leafText leaf)) q then
        pushMatch maxMatches out ⟨path, .value, summarize leaf⟩
      else out

/-- The `for (let i = 0; ...)` loop over array elements. -/
def visitMatchArr (q : JStr) (maxMatches : Nat) (items : List Json)
    (path : JStr) (i : Nat) (out : List Match) : List Match :=
  match items with
  | [] => out
  | item :: rest =>
    visitMatchArr q maxMatches rest path (i + 1)
      (visitMatch q maxMatches item (pathJoin path (Seg.idx i)) out)

/-- The `for (const k of Object.keys(node))` loop: key test, child visit,
then the cap break. -/
def visitMatchObj (q : JStr) (maxMatches : Nat)
    (entries : List (JStr × Json)) (path : JStr) (out : List Match) :
    List Match :=
  match entries with
  | [] => out
  | (k, v) :: rest =>
    let out1 := if jsIncludes (jsLower k) q then
        pushMatch maxMatches out ⟨pathJoin path (Seg.key k), .key, k⟩
      else out
    let out2 := visitMatch q maxMatches v (pathJoin path (Seg.key k)) out1
    if maxMatches ≤ out2.length then out2
    else visitMatchObj q maxMatches rest path out2

end

/-- Source `findMatches(root, queryRaw, maxMatches = 200)`. -/
def findMatches (root : Json) (queryRaw : JStr) (maxMatches : Nat := 200) :
    List Match :=
  let q := jsLower (jsTrim queryRaw)
  if q = [] then [] else visitMatch q maxMatches root [] []

theorem pushMatch_length_le (maxM : Nat) (out : List Match) (m : Match)
    (h : out.length ≤ maxM) : (pushMatch maxM out m).length ≤ maxM := by
  unfold pushMatch
  split_ifs with hc
  · simp
    omega
  · exact h

/-- The search traversal never grows the result beyond the cap. -/
theorem visitMatch_length_le (q : JStr) (maxM : Nat) :
    ∀ (node : Json) (path : JStr) (out : List Match),
      out.length ≤ maxM → (visitMatch q maxM node path out).length ≤ maxM := by
  refine visitMatch.induct q maxM
    (fun node path out => out.length ≤ maxM →
      (visitMatch q maxM node path out).length ≤ maxM)
    (fun entries path out => out.length ≤ maxM →
      (visitMatchObj q maxM entries path out).length ≤ maxM)
    (fun items path i out => out.length ≤ maxM →
      (visitMatchArr q maxM items path i out).length ≤ maxM)
    ?_ ?_ ?_ ?_ ?_ ?_ ?_ ?_ ?_ ?_ ?_
  · intro t path out hfull h
    cases t <;> simp [visitMatch, hfull, h]
  · intro path out hfull h
    simp [visitMatch, hfull, h]
  · intro path out hfull items ih h
    rw [visitMatch, if_neg hfull]
    exact ih h
  · intro path out hfull entries ih h
    rw [visitMatch, if_neg hfull]
    exact ih h
  · intro path out hfull leaf hn ha ho hinc h
    cases leaf with
    | null => exact (hn rfl).elim
    | arr items => exact (ha items rfl).elim
    | obj entries => exact (ho entries rfl).elim
    | bool b =>
      simp only [visitMatch, if_neg hfull, hinc, if_true]
      exact pushMatch_length_le _ _ _ h
    | num tok =>
      simp only [visitMatch, if_neg hfull, hinc, if_true]
      exact pushMatch_length_le _ _ _ h
    | str s =>
      simp only [visitMatch, if_neg hfull, hinc, if_true]
      exact pushMatch_length_le _ _ _ h
  · intro path out hfull leaf hn ha ho hinc h
    cases leaf with
    | null => exact (hn rfl).elim
    | arr items => exact (ha items rfl).elim
    | obj entries => exact (ho entries rfl).elim
    | bool b => simp [visitMatch, hfull, hinc, h]
    | num tok => simp [visitMatch, hfull, hinc, h]
    | str s => simp [visitMatch, hfull, hinc, h]
  · intro path i out h
    rw [visitMatchArr]
    exact h
  · intro path i out item rest ih1 ih2 h
    rw [visitMatchArr]
    exact ih2 (ih1 h)
  · intro path out h
    rw [visitMatchObj]
    exact h
  · intro path out k v rest out1 out2 hfull2 ih1 h
    have hout1 : (if jsIncludes (jsLower k) q = true then
        pushMatch maxM out ⟨pathJoin path (Seg.key k), .key, k⟩
      else out).length ≤ maxM := by
      split_ifs
      · exact pushMatch_length_le _ _ _ h
      · exact h
    have hfull2' : maxM ≤ (visitMatch q maxM v (pathJoin path (Seg.key k))
        (if jsIncludes (jsLower k) q = true then
          pushMatch maxM out ⟨pathJoin path (Seg.key k), .key, k⟩
        else out)).length := hfull2
    have ih1' : (if jsIncludes (jsLower k) q = true then
          pushMatch maxM out ⟨pathJoin path (Seg.key k), .key, k⟩
        else out).length ≤ maxM →
        (visitMatch q maxM v (pathJoin path (Seg.key k))
          (if jsIncludes (jsLower k) q = true then
            pushMatch maxM out ⟨pathJoin path (Seg.key k), .key, k⟩
          else out)).length ≤ maxM := ih1
    rw [visitMatchObj]
    simp only [if_pos hfull2']
    exact ih1' hout1
  · intro path out k v rest out1 out2 hfull2 ih1 ih2 h
    have hout1 : (if jsIncludes (jsLower k) q = true then
        pushMatch maxM out ⟨pathJoin path (Seg.key k), .key, k⟩
      else out).length ≤ maxM := by
      split_ifs
      · exact pushMatch_length_le _ _ _ h
      · exact h
    have hfull2' : ¬maxM ≤ (visitMatch q maxM v (pathJoin path (Seg.key k))
        (if jsIncludes (jsLower k) q = true then
          pushMatch maxM out ⟨pathJoin path (Seg.key k), .key, k⟩
        else out)).length := hfull2
    have ih1' : (if jsIncludes (jsLower k) q = true then
          pushMatch maxM out ⟨pathJoin path (Seg.key k), .key, k⟩
        else out).length ≤ maxM →
        (visitMatch q maxM v (pathJoin path (Seg.key k))
          (if jsIncludes (jsLower k) q = true then
            pushMatch maxM out ⟨pathJoin path (Seg.key k), .key, k⟩
          else out)).length ≤ maxM := ih1
    have ih2' : (visitMatch q maxM v (pathJoin path (Seg.key k))
          (if jsIncludes (jsLower k) q = true then
            pushMatch maxM out ⟨pathJoin path (Seg.key k), .key, k⟩
          else out)).length ≤ maxM →
        (visitMatchObj q maxM rest path
          (visitMatch q maxM v (pathJoin path (Seg.key k))
            (if jsIncludes (jsLower k) q = true then
              pushMatch maxM out ⟨pathJoin path (Seg.key k), .key, k⟩
            else out))).length ≤ maxM := ih2
    rw [visitMatchObj]
    simp only [if_neg hfull2']
    exact ih2' (ih1' hout1)

/-- A chain of `k` nested objects, each with the single key `"bob"`, above
a primitive leaf: `k` keys in total, all matching the query `"bob"`. -/
def chainDoc : Nat → Json
  | 0 => .num ['1']
  | n + 1 => .obj [("bob".data, chainDoc n)]

/-- On the all-matching chain, the search result grows by exactly one match
per key until it hits the cap. -/
theorem visitMatch_chainDoc : ∀ (k : Nat) (path : JStr) (out : List Match),
    out.length ≤ 200 →
    (visitMatch "bob".data 200 (chainDoc k) path out).length =
      min (out.length + k) 200 := by
  intro k
  induction k with
  | zero =>
    intro path out h
    by_cases hfull : 200 ≤ out.length
    · simp [visitMatch, hfull]
      omega
    · have hni : jsIncludes (jsLower (leafText (Json.num ['1']))) "bob".data =
          false := by decide
      simp [chainDoc, visitMatch, hfull, hni]
      omega
  | succ k ih =>
    intro path out h
    by_cases hfull : 200 ≤ out.length
    · rw [show chainDoc (k + 1) = .obj [("bob".data, chainDoc k)] from rfl,
        visitMatch, if_pos hfull]
      omega
    · have hinc : jsIncludes (jsLower "bob".data) "bob".data = true := by decide
      rw [show chainDoc (k + 1) = .obj [("bob".data, chainDoc k)] from rfl,
        visitMatch, if_neg hfull]
      simp only [visitMatchObj, hinc, if_true]
      have hpush : pushMatch 200 out
          ⟨pathJoin path (Seg.key "bob".data), .key, "bob".data⟩ =
          out ++ [⟨pathJoin path (Seg.key "bob".data), .key, "bob".data⟩] := by
        rw [pushMatch, if_pos (by omega)]
      rw [hpush]
      have hIH := ih (pathJoin path (Seg.key "bob".data))
        (out ++ [⟨pathJoin path (Seg.key "bob".data), .key, "bob".data⟩])
        (by simp; omega)
      split_ifs with hb <;>
        · rw [hIH]
          simp only [List.length_append, List.length_singleton]
          omega

/-- Claim C4.  Search enforces the hard cap: every result has at most
`maxMatches` entries, and on a document of 10,000 keys that all match the
query the result has exactly 200 entries. -/
theorem search_cap :
    (∀ (root : Json) (queryRaw : JStr) (maxMatches : Nat),
      (findMatches root queryRaw maxMatches).length ≤ maxMatches) ∧
    (findMatches (chainDoc 10000) "bob".data 200).length = 200 := by
  constructor
  · intro root queryRaw maxMatches
    simp only [findMatches]
    split_ifs
    · simp
    · exact visitMatch_length_le _ _ root [] [] (by simp)
  · have hq : jsLower (jsTrim "bob".data) = "bob".data := by decide
    simp only [findMatches, hq]
    rw [if_neg (by decide)]
    have := visitMatch_chainDoc 10000 [] [] (by simp)
    rw [this]
    omega

/-- Claim C5.  On the document from the spec, the query `"bob"` matches
exactly the key at `a.bob` (preview `bob`) and the value at `list[2]`
(preview `bob`), with nothing for the `list` key; and a null leaf never
produces a match. -/
theorem search_scope_example :
    (findMatches
        (Json.obj [("a".data, Json.obj [("bob".data, Json.num ['1'])]),
          ("list".data,
            Json.arr [Json.num ['1'], Json.num ['2'], Json.str "bob".data])])
        "bob".data 200 =
      [⟨"a.bob".data, MatchKind.key, "bob".data⟩,
        ⟨"list[2]".data, MatchKind.value, "bob".data⟩]) ∧
    (∀ (q : JStr) (maxM : Nat) (path : JStr) (out : List Match),
      visitMatch q maxM Json.null path out = out) := by
  constructor
  · decide
  · intro q maxM path out
    simp [visitMatch]

/-! ## The share codec (claim C3) -/

/-- Hexadecimal value of a digit character, `none` otherwise. -/
def hexVal (c : Char) : Option Nat :=
  if 48 ≤ c.toNat ∧ c.toNat ≤ 57 then some (c.toNat - 48)
  else if 65 ≤ c.toNat ∧ c.toNat ≤ 70 then some (c.toNat - 55)
  else none

/-- Fixed-width six-digit hexadecimal rendering of a code point. -/
def codeHex (n : Nat) : List Char :=
  [hexDigit (n / 1048576 % 16), hexDigit (n / 65536 % 16),
   hexDigit (n / 4096 % 16), hexDigit (n / 256 % 16),
   hexDigit (n / 16 % 16), hexDigit (n % 16)]

/-- Modelled from the spec: `compressToEncodedURIComponent` of the
`lz-string` library is external code, absent from the repository source.
Per §4.5 the codec contract is only that `encode` maps arbitrary text to
URL-fragment-safe characters and that `decode` inverts it; the specific
compression algorithm is explicitly not part of the contract.  This model
encodes each character as six hexadecimal digits. -/
def encodeShare (t : JStr) : JStr := t.flatMap (fun c => codeHex c.toNat)

/-- Modelled from the spec: `decompressFromEncodedURIComponent` of
`lz-string`, the inverse transform; per §4.5 it returns null (here
`none`) on malformed or foreign tokens rather than raising. -/
def decodeShare : JStr → Option JStr
  | [] => some []
  | c0 :: c1 :: c2 :: c3 :: c4 :: c5 :: rest =>
    match hexVal c0, hexVal c1, hexVal c2, hexVal c3, hexVal c4, hexVal c5,
        decodeShare rest with
    | some v0, some v1, some v2, some v3, some v4, some v5, some tail =>
      let n := v0 * 1048576 + v1 * 65536 + v2 * 4096 + v3 * 256 + v4 * 16 + v5
      if Nat.isValidChar n then some (Char.ofNat n :: tail) else none
    | _, _, _, _, _, _, _ => none
  | _ => none

theorem hexVal_hexDigit_fin : ∀ n : Fin 16, hexVal (hexDigit n) = some n := by
  decide

theorem hexVal_hexDigit (n : Nat) (h : n < 16) :
    hexVal (hexDigit n) = some n := hexVal_hexDigit_fin ⟨n, h⟩

theorem char_isValidChar (c : Char) : Nat.isValidChar c.toNat := c.valid

/-- Claim C3.  The share codec round-trips every text: decoding an encoded
text (the empty text and texts with astral characters included — a `Char`
covers every Unicode scalar value, so a JavaScript surrogate pair is one
element here) yields the original. -/
theorem share_roundtrip : ∀ t : JStr, decodeShare (encodeShare t) = some t := by
  intro t
  induction t with
  | nil => rfl
  | cons c rest ih =>
    have henc : encodeShare (c :: rest) =
        hexDigit (c.toNat / 1048576 % 16) :: hexDigit (c.toNat / 65536 % 16) ::
        hexDigit (c.toNat / 4096 % 16) :: hexDigit (c.toNat / 256 % 16) ::
        hexDigit (c.toNat / 16 % 16) :: hexDigit (c.toNat % 16) ::
        encodeShare rest := by
      simp [encodeShare, codeHex]
    rw [henc, decodeShare]
    rw [hexVal_hexDigit _ (Nat.mod_lt _ (by norm_num)),
      hexVal_hexDigit _ (Nat.mod_lt _ (by norm_num)),
      hexVal_hexDigit _ (Nat.mod_lt _ (by norm_num)),
      hexVal_hexDigit _ (Nat.mod_lt _ (by norm_num)),
      hexVal_hexDigit _ (Nat.mod_lt _ (by norm_num)),
      hexVal_hexDigit _ (Nat.mod_lt _ (by norm_num)), ih]
    have hn : c.toNat / 1048576 % 16 * 1048576 + c.toNat / 65536 % 16 * 65536 +
        c.toNat / 4096 % 16 * 4096 + c.toNat / 256 % 16 * 256 +
        c.toNat / 16 % 16 * 16 + c.toNat % 16 = c.toNat := by
      have := char_toNat_lt c
      omega
    simp only [hn, char_isValidChar c, if_true, Char.ofNat_toNat]

/-! ## The remote-fetch proxy (claim C9) -/

/-- Modelled from the spec: the WHATWG `new URL(...)` parser is a platform
builtin, absent from the repository source.  Per §6 the target must "parse
as an absolute URL": modelled as a scheme (`[A-Za-z][A-Za-z0-9+.\-]*`)
followed by a colon; `protocol` is the lower-cased scheme with the colon,
as in the builtin. -/
structure ParsedURL where
  protocol : JStr
  rest : JStr
deriving DecidableEq, Repr

/-- A scheme character after the first. -/
def isSchemeChar (c : Char) : Bool :=
  c.isAlpha || c.isDigit || c = '+' || c = '-' || c = '.'

/-- Modelled from the spec: `new URL(url)` — succeeds exactly when the text
starts with a scheme and a colon. -/
def parseURL (s : JStr) : Option ParsedURL :=
  match s with
  | [] => none
  | c :: rest =>
    if c.isAlpha then
      match rest.dropWhile isSchemeChar with
      | ':' :: r => some ⟨jsLower (c :: rest.takeWhile isSchemeChar) ++ [':'], r⟩
      | _ => none
    else none

/-- Outcome of the proxy handler before any network activity. -/
inductive ProxyResult where
  | respond (status : Nat) (error : JStr)
  | fetchUpstream (target : JStr)
deriving DecidableEq, Repr

/-- Source `GET` (validation phase, lines 5–18): reject a missing (or, by
JavaScript falsiness, empty) `url` parameter, an unparseable URL, and any
scheme other than `https`, each with a 400 JSON error; otherwise proceed
to the upstream fetch. -/
def GETvalidate (urlParam : Option JStr) : ProxyResult :=
  match urlParam with
  | none => .respond 400 "Missing url".data
  | some url =>
    if url = [] then .respond 400 "Missing url".data
    else
      match parseURL url with
      | none => .respond 400 "Invalid url".data
      | some parsed =>
        if parsed.protocol ≠ "https:".data then
          .respond 400 "Only https URLs are allowed".data
        else .fetchUpstream url

/-- Claim C9.  Whenever the `url` parameter is missing, fails to parse as
an absolute URL, or has a scheme other than exactly `https`, the proxy
responds 400 with an error body and performs no upstream fetch. -/
theorem proxy_validation (urlParam : Option JStr)
    (h : ∀ u p, urlParam = some u → u ≠ [] → parseURL u = some p →
      p.protocol ≠ "https:".data) :
    (∃ msg, GETvalidate urlParam = .respond 400 msg) ∧
    ∀ t, GETvalidate urlParam ≠ .fetchUpstream t := by
  match hu : urlParam with
  | none => exact ⟨⟨"Missing url".data, rfl⟩, fun t => by simp [GETvalidate]⟩
  | some url =>
    by_cases hnil : url = []
    · subst hnil
      exact ⟨⟨"Missing url".data, rfl⟩, fun t => by simp [GETvalidate]⟩
    · match hp : parseURL url with
      | none =>
        refine ⟨⟨"Invalid url".data, ?_⟩, fun t => ?_⟩ <;>
          simp [GETvalidate, hnil, hp]
      | some parsed =>
        have hne : parsed.protocol ≠ "https:".data := h url parsed rfl hnil hp
        refine ⟨⟨"Only https URLs are allowed".data, ?_⟩, fun t => ?_⟩ <;>
          simp [GETvalidate, hnil, hp, hne]

/-- Witness for claim C9 at the concrete request `url=http://x`. -/
theorem proxy_validation_witness :
    (∃ msg, GETvalidate (some "http://x".data) = .respond 400 msg) ∧
    ∀ t, GETvalidate (some "http://x".data) ≠ .fetchUpstream t := by
  apply proxy_validation
  intro u p hu hne hp
  have hu' : u = "http://x".data := (Option.some.inj hu).symm
  subst hu'
  have hparse : parseURL "http://x".data =
      some ⟨"http:".data, "//x".data⟩ := by decide
  rw [hparse] at hp
  have : p = ⟨"http:".data, "//x".data⟩ := (Option.some.inj hp).symm
  subst this
  decide

/-! ## JSON text: parser and serializer (claims C7, C8)

`JSON.parse` and `JSON.stringify` are platform builtins, absent from the
repository source; they are modelled from the spec (§4.1: parse to a value
or a structured error; re-serialize with two-space indentation or no
whitespace, keys in insertion order).  Two deliberate modelling choices:
numbers carry their numeral token rather than a float64 (the spec's
"minimal round-trip decimal form" lives inside the engine's float
formatting, which a shallow embedding does not model), and a `\uXXXX`
escape denoting a lone UTF-16 surrogate is rejected (a Lean `Char` cannot
hold it; paired surrogates are combined as the builtin does). -/

/-- JSON whitespace: space, tab, line feed, carriage return. -/
def isJsonWs (c : Char) : Bool :=
  c.toNat = 32 || c.toNat = 9 || c.toNat = 10 || c.toNat = 13

/-- Skip insignificant whitespace. -/
def skipWs (s : JStr) : JStr := s.dropWhile isJsonWs

/-- An ASCII digit. -/
def isDigitChar (c : Char) : Bool := 48 ≤ c.toNat && c.toNat ≤ 57

/-- Characters that can occur in a number token
(digits, `-`, `+`, `.`, `e`, `E`). -/
def isNumTokChar (c : Char) : Bool :=
  isDigitChar c || c.toNat = 45 || c.toNat = 43 || c.toNat = 46 ||
    c.toNat = 101 || c.toNat = 69

/-- The integer digits of the number grammar: `0` or `[1-9][0-9]*`. -/
def numIntDigits : JStr → Option JStr
  | [] => none
  | c :: rest =>
    if c = '0' then some rest
    else if isDigitChar c then some (rest.dropWhile isDigitChar)
    else none

/-- The optional leading minus. -/
def numIntPart : JStr → Option JStr
  | '-' :: rest => numIntDigits rest
  | s => numIntDigits s

/-- The optional fraction: `.` followed by at least one digit. -/
def numFracPart : JStr → Option JStr
  | '.' :: c :: rest =>
    if isDigitChar c then some (rest.dropWhile isDigitChar) else none
  | '.' :: [] => none
  | s => some s

/-- At least one digit. -/
def numDigits1 : JStr → Option JStr
  | [] => none
  | c :: rest =>
    if isDigitChar c then some (rest.dropWhile isDigitChar) else none

/-- The optional exponent: `e`/`E`, an optional sign, then digits. -/
def numExpPart : JStr → Option JStr
  | [] => some []
  | e :: rest =>
    if e = 'e' || e = 'E' then
      match rest with
      | s :: rest2 => if s = '+' || s = '-' then numDigits1 rest2 else numDigits1 rest
      | [] => none
    else some (e :: rest)

/-- Whether a token matches the JSON number grammar exactly. -/
def validNumTok (t : JStr) : Bool :=
  match numIntPart t with
  | none => false
  | some r1 =>
    match numFracPart r1 with
    | none => false
    | some r2 =>
      match numExpPart r2 with
      | none => false
      | some r3 => r3.isEmpty

/-- Hexadecimal digit value, upper or lower case. -/
def hexValCI (c : Char) : Option Nat :=
  if 48 ≤ c.toNat ∧ c.toNat ≤ 57 then some (c.toNat - 48)
  else if 65 ≤ c.toNat ∧ c.toNat ≤ 70 then some (c.toNat - 55)
  else if 97 ≤ c.toNat ∧ c.toNat ≤ 102 then some (c.toNat - 87)
  else none

/-- The single-character escapes of JSON strings. -/
def simpleEscape (c : Char) : Option Char :=
  if c = '"' then some '"'
  else if c = '\\' then some '\\'
  else if c = '/' then some '/'
  else if c = 'b' then some (Char.ofNat 8)
  else if c = 'f' then some (Char.ofNat 12)
  else if c = 'n' then some (Char.ofNat 10)
  else if c = 'r' then some (Char.ofNat 13)
  else if c = 't' then some (Char.ofNat 9)
  else none

/-- Decode a `\\uXXXX` escape after the `\\u`, combining a high/low
surrogate pair (as `JSON.parse` does) into one scalar value. -/
def decodeUEscape (a b c2 d : Char) (rest3 : JStr) : Option (Char × JStr) :=
  match hexValCI a, hexValCI b, hexValCI c2, hexValCI d with
  | some va, some vb, some vc, some vd =>
    let n := va * 4096 + vb * 256 + vc * 16 + vd
    if Nat.isValidChar n then some (Char.ofNat n, rest3)
    else if n ≤ 0xDBFF then
      match rest3 with
      | '\\' :: 'u' :: a2 :: b2 :: c3 :: d2 :: rest4 =>
        match hexValCI a2, hexValCI b2, hexValCI c3, hexValCI d2 with
        | some wa, some wb, some wc, some wd =>
          let m := wa * 4096 + wb * 256 + wc * 16 + wd
          if 0xDC00 ≤ m ∧ m ≤ 0xDFFF then
            let cp := 65536 + (n - 0xD800) * 1024 + (m - 0xDC00)
            if Nat.isValidChar cp then some (Char.ofNat cp, rest4) else none
          else none
        | _, _, _, _ => none
      | _ => none
    else none
  | _, _, _, _ => none

theorem decodeUEscape_length {a b c2 d : Char} {rest3 : JStr} {ch : Char}
    {r : JStr} (h : decodeUEscape a b c2 d rest3 = some (ch, r)) :
    r.length ≤ rest3.length := by
  unfold decodeUEscape at h
  repeat (first | split at h | simp only [] at h)
  all_goals simp_all
  all_goals omega

/-- Parse the body of a JSON string after the opening quote, returning the
decoded text and the input after the closing quote.  Raw control
characters are rejected. -/
def parseStringBody : JStr → Option (JStr × JStr)
  | [] => none
  | c :: rest =>
    if c = '"' then some ([], rest)
    else if c = '\\' then
      match rest with
      | [] => none
      | 'u' :: a :: b :: c2 :: d :: rest3 =>
        match h : decodeUEscape a b c2 d rest3 with
        | some (ch, r) => (parseStringBody r).map (fun p => (ch :: p.1, p.2))
        | none => none
      | e :: rest2 =>
        match simpleEscape e with
        | some ch => (parseStringBody rest2).map (fun p => (ch :: p.1, p.2))
        | none => none
    else if c.toNat < 32 then none
    else (parseStringBody rest).map (fun p => (c :: p.1, p.2))
termination_by s => s.length
decreasing_by
  all_goals simp_wf
  all_goals try (have hdl := decodeUEscape_length h)
  all_goals omega

mutual

/-- Modelled from the spec: the value grammar of `JSON.parse`.  Fuel
decreases on every recursive call; `jsonParse` supplies enough for any
input it can succeed on. -/
def parseValue : Nat → JStr → Option (Json × JStr)
  | 0, _ => none
  | fuel + 1, cs =>
    match skipWs cs with
    | [] => none
    | c :: rest =>
      if c = '[' then
        match skipWs rest with
        | ']' :: rest2 => some (.arr [], rest2)
        | cs2 => (parseElems fuel cs2).map (fun p => (.arr p.1, p.2))
      else if c = '{' then
        match skipWs rest with
        | '}' :: rest2 => some (.obj [], rest2)
        | cs2 => (parseMembers fuel cs2).map (fun p => (.obj p.1, p.2))
      else if c = '"' then
        (parseStringBody rest).map (fun p => (.str p.1, p.2))
      else if c = 'n' then
        match rest with
        | 'u' :: 'l' :: 'l' :: r => some (.null, r)
        | _ => none
      else if c = 't' then
        match rest with
        | 'r' :: 'u' :: 'e' :: r => some (.bool true, r)
        | _ => none
      else if c = 'f' then
        match rest with
        | 'a' :: 'l' :: 's' :: 'e' :: r => some (.bool false, r)
        | _ => none
      else
        if validNumTok ((c :: rest).takeWhile isNumTokChar) then
          some (.num ((c :: rest).takeWhile isNumTokChar),
            (c :: rest).dropWhile isNumTokChar)
        else none

/-- One or more array elements, then the closing bracket. -/
def parseElems : Nat → JStr → Option (List Json × JStr)
  | 0, _ => none
  | fuel + 1, cs =>
    match parseValue fuel cs with
    | none => none
    | some (v, r) =>
      match skipWs r with
      | ',' :: r2 => (parseElems fuel r2).map (fun p => (v :: p.1, p.2))
      | ']' :: r2 => some ([v], r2)
      | _ => none

/-- One or more `"key": value` members, then the closing brace. -/
def parseMembers : Nat → JStr → Option (List (JStr × Json) × JStr)
  | 0, _ => none
  | fuel + 1, cs =>
    match skipWs cs with
    | '"' :: rest =>
      match parseStringBody rest with
      | none => none
      | some (k, r) =>
        match skipWs r with
        | ':' :: r2 =>
          match parseValue fuel r2 with
          | none => none
          | some (v, r3) =>
            match skipWs r3 with
            | ',' :: r4 => (parseMembers fuel r4).map (fun p => ((k, v) :: p.1, p.2))
            | '}' :: r4 => some ([(k, v)], r4)
            | _ => none
        | _ => none
    | _ => none

end

/-- Modelled from the spec: `JSON.parse` — a value with surrounding
whitespace and nothing else. -/
def jsonParse (t : JStr) : Option Json :=
  match parseValue (t.length + 1) t with
  | some (v, r) => if (skipWs r).isEmpty then some v else none
  | none => none

/-- Lowercase hexadecimal digit, as `JSON.stringify` emits in `\uXXXX`. -/
def hexDigitLower (n : Nat) : Char :=
  if n < 10 then Char.ofNat (48 + n) else Char.ofNat (87 + n)

/-- String escaping of `JSON.stringify`. -/
def escapeChar (c : Char) : JStr :=
  if c = '"' then ['\\', '"']
  else if c = '\\' then ['\\', '\\']
  else if c.toNat = 8 then ['\\', 'b']
  else if c.toNat = 12 then ['\\', 'f']
  else if c.toNat = 10 then ['\\', 'n']
  else if c.toNat = 13 then ['\\', 'r']
  else if c.toNat = 9 then ['\\', 't']
  else if c.toNat < 32 then
    ['\\', 'u', '0', '0', hexDigitLower (c.toNat / 16), hexDigitLower (c.toNat % 16)]
  else [c]

/-- A serialized JSON string. -/
def printStr (s : JStr) : JStr := '"' :: (s.flatMap escapeChar ++ ['"'])

mutual

/-- Modelled from the spec: `JSON.stringify(v, null, pretty ? 2 : 0)` at
indentation depth `ind` — two-space indentation when `pretty`, no
insignificant whitespace otherwise, keys in insertion order, numbers as
their tokens. -/
def printJson (pretty : Bool) (ind : Nat) : Json → JStr
  | .null => "null".data
  | .bool true => "true".data
  | .bool false => "false".data
  | .num tok => tok
  | .str s => printStr s
  | .arr [] => ['[', ']']
  | .arr (x :: xs) =>
    if pretty then
      '[' :: '\n' :: (List.replicate (ind + 2) ' ' ++
        printElemsJ pretty (ind + 2) (x :: xs) ++
        '\n' :: (List.replicate ind ' ' ++ [']']))
    else '[' :: (printElemsJ pretty ind (x :: xs) ++ [']'])
  | .obj [] => ['{', '}']
  | .obj (kv :: kvs) =>
    if pretty then
      '{' :: '\n' :: (List.replicate (ind + 2) ' ' ++
        printMembersJ pretty (ind + 2) (kv :: kvs) ++
        '\n' :: (List.replicate ind ' ' ++ ['}']))
    else '{' :: (printMembersJ pretty ind (kv :: kvs) ++ ['}'])

/-- Array elements joined by a comma (and a newline with indentation when
pretty). -/
def printElemsJ (pretty : Bool) (ind : Nat) : List Json → JStr
  | [] => []
  | [v] => printJson pretty ind v
  | v :: w :: rest =>
    printJson pretty ind v ++
      (if pretty then ',' :: '\n' :: List.replicate ind ' ' else [',']) ++
      printElemsJ pretty ind (w :: rest)

/-- Object members `"key": value` joined like array elements. -/
def printMembersJ (pretty : Bool) (ind : Nat) : List (JStr × Json) → JStr
  | [] => []
  | [(k, v)] =>
    printStr k ++ (if pretty then [':', ' '] else [':']) ++ printJson pretty ind v
  | (k, v) :: kv :: rest =>
    printStr k ++ (if pretty then [':', ' '] else [':']) ++ printJson pretty ind v ++
      (if pretty then ',' :: '\n' :: List.replicate ind ' ' else [',']) ++
      printMembersJ pretty ind (kv :: rest)

end

/-- Parse outcome of `safeJsonParse` (source shape
`{ok: true, value} | {ok: false, error}`). -/
inductive ParseResult where
  | ok (value : Json)
  | err (error : JStr)

/-- Modelled from the spec: the engine's parse diagnostic, passed through
verbatim by `safeJsonParse`. -/
def parseErrorMsg (_t : JStr) : JStr := "Unexpected token in JSON".data

/-- Source `safeJsonParse`: empty or whitespace-only text parses to a null
value; otherwise delegate to the JSON parser, converting an exception into
the error result. -/
def safeJsonParse (text : JStr) : ParseResult :=
  if (jsTrim text).isEmpty then .ok .null
  else
    match jsonParse text with
    | some v => .ok v
    | none => .err (parseErrorMsg text)

/-- Result of `formatJson` / `minifyJson` (source shape
`{ok: true, value: text} | {ok: false, error}`). -/
inductive FormatResult where
  | ok (value : JStr)
  | err (error : JStr)
deriving DecidableEq, Repr

/-- Source `formatJson`: parse then re-serialize with 2-space indentation. -/
def formatJson (text : JStr) : FormatResult :=
  match safeJsonParse text with
  | .err e => .err e
  | .ok v => .ok (printJson true 0 v)

/-- Source `minifyJson`: parse then re-serialize compactly. -/
def minifyJson (text : JStr) : FormatResult :=
  match safeJsonParse text with
  | .err e => .err e
  | .ok v => .ok (printJson false 0 v)

/-! ## Round-trip infrastructure -/

/-- Values the parser can produce: number tokens match the number grammar
and consist of number-token characters. -/
inductive WFJson : Json → Prop where
  | null : WFJson .null
  | bool (b : Bool) : WFJson (.bool b)
  | num (tok : JStr) (hv : validNumTok tok = true)
      (hc : ∀ c ∈ tok, isNumTokChar c = true) : WFJson (.num tok)
  | str (s : JStr) : WFJson (.str s)
  | arr (items : List Json) (h : ∀ e ∈ items, WFJson e) : WFJson (.arr items)
  | obj (entries : List (JStr × Json)) (h : ∀ kv ∈ entries, WFJson kv.2) :
      WFJson (.obj entries)

/-- Structural induction for the nested inductive `Json`. -/
theorem jsonIndOn (P : Json → Prop) (hnull : P .null) (hbool : ∀ b, P (.bool b))
    (hnum : ∀ t, P (.num t)) (hstr : ∀ s, P (.str s))
    (harr : ∀ l, (∀ e ∈ l, P e) → P (.arr l))
    (hobj : ∀ m, (∀ kv ∈ m, P kv.2) → P (.obj m)) : ∀ v, P v := by
  have key : ∀ (n : Nat) (v : Json), sizeOf v ≤ n → P v := by
    intro n
    induction n with
    | zero =>
      intro v hv
      exfalso
      cases v <;> simp at hv
    | succ n ih =>
      intro v hv
      cases v with
      | null => exact hnull
      | bool b => exact hbool b
      | num t => exact hnum t
      | str s => exact hstr s
      | arr l =>
        apply harr
        intro e he
        apply ih
        have h1 := List.sizeOf_lt_of_mem he
        have h2 : sizeOf (Json.arr l) = 1 + sizeOf l := by simp
        omega
      | obj m =>
        apply hobj
        intro kv hkv
        apply ih
        have h1 := List.sizeOf_lt_of_mem hkv
        have h2 : sizeOf (Json.obj m) = 1 + sizeOf m := by simp
        have h3 : sizeOf kv.2 < sizeOf kv := by
          obtain ⟨k, x⟩ := kv
          simp
        omega
  exact fun v => key (sizeOf v) v le_rfl

mutual

/-- Fuel needed by `parseValue` to re-parse a printed value. -/
def jsize : Json → Nat
  | .null => 1
  | .bool _ => 1
  | .num _ => 1
  | .str _ => 1
  | .arr items => 1 + sizeElems items
  | .obj entries => 1 + sizeMembers entries

/-- Fuel needed by `parseElems`. -/
def sizeElems : List Json → Nat
  | [] => 0
  | v :: rest => 1 + jsize v + sizeElems rest

/-- Fuel needed by `parseMembers`. -/
def sizeMembers : List (JStr × Json) → Nat
  | [] => 0
  | kv :: rest => 1 + jsize kv.2 + sizeMembers rest

end

theorem validNumTok_ne_nil {t : JStr} (h : validNumTok t = true) : t ≠ [] := by
  intro h0
  subst h0
  simp [validNumTok, numIntPart, numIntDigits] at h

theorem jsize_pos (v : Json) : 1 ≤ jsize v := by
  cases v <;> simp [jsize]

/-- Whitespace is never a number-token character. -/
theorem ws_not_numchar {c : Char} (h : isJsonWs c = true) :
    isNumTokChar c = false := by
  simp only [isJsonWs, Bool.or_eq_true, decide_eq_true_eq] at h
  simp only [isNumTokChar, isDigitChar, Bool.or_eq_false_iff,
    Bool.and_eq_false_iff, decide_eq_false_iff_not]
  omega

theorem numchar_not_ws {c : Char} (h : isNumTokChar c = true) :
    isJsonWs c = false := by
  simp only [isNumTokChar, isDigitChar, Bool.or_eq_true, Bool.and_eq_true,
    decide_eq_true_eq] at h
  simp only [isJsonWs, Bool.or_eq_false_iff, decide_eq_false_iff_not]
  omega

theorem skipWs_cons_not {c : Char} (h : isJsonWs c = false) (s : JStr) :
    skipWs (c :: s) = c :: s := by
  simp [skipWs, List.dropWhile_cons, h]

theorem skipWs_cons_ws {c : Char} (h : isJsonWs c = true) (s : JStr) :
    skipWs (c :: s) = skipWs s := by
  simp [skipWs, List.dropWhile_cons, h]

/-- Whitespace-only text. -/
def wsOnly (l : JStr) : Prop := ∀ c ∈ l, isJsonWs c = true

theorem skipWs_wsOnly_append {w : JStr} (hw : wsOnly w) (s : JStr) :
    skipWs (w ++ s) = skipWs s := by
  induction w with
  | nil => simp
  | cons c t ih =>
    rw [List.cons_append, skipWs_cons_ws (hw c (by simp))]
    exact ih (fun c' hc' => hw c' (by simp [hc']))

theorem wsOnly_nil : wsOnly [] := by intro c hc; cases hc

theorem wsOnly_indent (n : Nat) : wsOnly ('\n' :: List.replicate n ' ') := by
  intro c hc
  rcases List.mem_cons.mp hc with rfl | hm
  · decide
  · rw [List.eq_of_mem_replicate hm]
    decide

/-- What must follow a printed number token so the scanner stops there. -/
def numBoundary : JStr → Prop
  | [] => True
  | c :: _ => isNumTokChar c = false

theorem takeWhile_tok {t : JStr} (rest : JStr)
    (hall : ∀ c ∈ t, isNumTokChar c = true) (hb : numBoundary rest) :
    (t ++ rest).takeWhile isNumTokChar = t ∧
      (t ++ rest).dropWhile isNumTokChar = rest := by
  induction t with
  | nil =>
    cases rest with
    | nil => simp
    | cons c r =>
      simp only [numBoundary] at hb
      simp [List.takeWhile_cons, List.dropWhile_cons, hb]
  | cons c t ih =>
    have hc : isNumTokChar c = true := hall c (by simp)
    obtain ⟨h1, h2⟩ := ih (fun c' hc' => hall c' (by simp [hc']))
    simp [List.takeWhile_cons, List.dropWhile_cons, hc, h1, h2]

/-- The first character of a printed value: not whitespace (in either
sense) and not a closing bracket. -/
def goodHead (l : JStr) : Bool :=
  match l with
  | [] => false
  | c :: _ => !isJsonWs c && !isJsWs c && !(c = ']') && !(c = '}')

theorem numchar_goodHead {c : Char} (h : isNumTokChar c = true) (t : JStr) :
    goodHead (c :: t) = true := by
  simp only [isNumTokChar, isDigitChar, Bool.or_eq_true, Bool.and_eq_true,
    decide_eq_true_eq] at h
  simp only [goodHead, Bool.and_eq_true, Bool.not_eq_true']
  refine ⟨⟨⟨?_, ?_⟩, ?_⟩, ?_⟩
  · simp only [isJsonWs, Bool.or_eq_false_iff, decide_eq_false_iff_not]
    omega
  · simp only [isJsWs, Bool.or_eq_false_iff, decide_eq_false_iff_not]
    omega
  · simp only [decide_eq_false_iff_not]
    intro h0
    subst h0
    revert h
    decide
  · simp only [decide_eq_false_iff_not]
    intro h0
    subst h0
    revert h
    decide

theorem numchar_ne_delims {c : Char} (hc : isNumTokChar c = true) :
    c ≠ '[' ∧ c ≠ '{' ∧ c ≠ '"' ∧ c ≠ 'n' ∧ c ≠ 't' ∧ c ≠ 'f' := by
  refine ⟨?_, ?_, ?_, ?_, ?_, ?_⟩ <;>
    (intro h0; subst h0; revert hc; decide)

theorem parseValue_step_null (f : Nat) (cs r : JStr)
    (h : skipWs cs = 'n' :: 'u' :: 'l' :: 'l' :: r) :
    parseValue (f + 1) cs = some (.null, r) := by
  rw [parseValue, h]
  rfl

theorem parseValue_step_true (f : Nat) (cs r : JStr)
    (h : skipWs cs = 't' :: 'r' :: 'u' :: 'e' :: r) :
    parseValue (f + 1) cs = some (.bool true, r) := by
  rw [parseValue, h]
  rfl

theorem parseValue_step_false (f : Nat) (cs r : JStr)
    (h : skipWs cs = 'f' :: 'a' :: 'l' :: 's' :: 'e' :: r) :
    parseValue (f + 1) cs = some (.bool false, r) := by
  rw [parseValue, h]
  rfl

theorem parseValue_step_str (f : Nat) (cs r : JStr)
    (h : skipWs cs = '"' :: r) :
    parseValue (f + 1) cs =
      (parseStringBody r).map (fun p => (Json.str p.1, p.2)) := by
  rw [parseValue, h]
  rfl

theorem parseValue_step_arr (f : Nat) (cs r : JStr)
    (h : skipWs cs = '[' :: r) :
    parseValue (f + 1) cs =
      (match skipWs r with
        | ']' :: rest2 => some (.arr [], rest2)
        | cs2 => (parseElems f cs2).map (fun p => (Json.arr p.1, p.2))) := by
  rw [parseValue, h]
  rfl

theorem parseValue_step_obj (f : Nat) (cs r : JStr)
    (h : skipWs cs = '{' :: r) :
    parseValue (f + 1) cs =
      (match skipWs r with
        | '}' :: rest2 => some (.obj [], rest2)
        | cs2 => (parseMembers f cs2).map (fun p => (Json.obj p.1, p.2))) := by
  rw [parseValue, h]
  rfl

theorem parseValue_step_num (f : Nat) (cs : JStr) {c : Char} {t : JStr}
    (h : skipWs cs = c :: t) (hc : isNumTokChar c = true) :
    parseValue (f + 1) cs =
      (if validNumTok ((c :: t).takeWhile isNumTokChar) then
        some (.num ((c :: t).takeWhile isNumTokChar),
          (c :: t).dropWhile isNumTokChar)
      else none) := by
  obtain ⟨h1, h2, h3, h4, h5, h6⟩ := numchar_ne_delims hc
  rw [parseValue, h]
  dsimp only []
  rw [if_neg h1, if_neg h2, if_neg h3, if_neg h4, if_neg h5, if_neg h6]

/-- The open-bracket continuation when the next character is not the
immediate close bracket. -/
theorem arrBranch_cons (f : Nat) {r : JStr} {c2 : Char} {t2 : JStr}
    (h2 : skipWs r = c2 :: t2) (hne : c2 ≠ ']') :
    (match skipWs r with
      | ']' :: rest2 => some (.arr [], rest2)
      | cs2 => (parseElems f cs2).map (fun p => (Json.arr p.1, p.2))) =
      (parseElems f (c2 :: t2)).map (fun p => (Json.arr p.1, p.2)) := by
  rw [h2]
  split
  · rename_i heq
    injection heq with hhead _
    exact absurd hhead hne
  · rfl

theorem objBranch_cons (f : Nat) {r : JStr} {c2 : Char} {t2 : JStr}
    (h2 : skipWs r = c2 :: t2) (hne : c2 ≠ '}') :
    (match skipWs r with
      | '}' :: rest2 => some (.obj [], rest2)
      | cs2 => (parseMembers f cs2).map (fun p => (Json.obj p.1, p.2))) =
      (parseMembers f (c2 :: t2)).map (fun p => (Json.obj p.1, p.2)) := by
  rw [h2]
  split
  · rename_i heq
    injection heq with hhead _
    exact absurd hhead hne
  · rfl

/-- Every printed well-formed value starts with a good head character. -/
theorem printJson_goodHead (pretty : Bool) (ind : Nat) (v : Json)
    (h : WFJson v) : goodHead (printJson pretty ind v) = true := by
  cases v with
  | null => simp [printJson, goodHead] <;> decide
  | bool b => cases b <;> simp [printJson, goodHead] <;> decide
  | str s => simp [printJson, printStr, goodHead] <;> decide
  | num tok =>
    cases h with
    | num _ hv hc =>
      obtain ⟨c, t, rfl⟩ := List.exists_cons_of_ne_nil (validNumTok_ne_nil hv)
      simp only [printJson]
      exact numchar_goodHead (hc c (by simp)) t
  | arr items =>
    cases items with
    | nil => simp [printJson, goodHead] <;> decide
    | cons x xs => cases pretty <;> simp [printJson, goodHead] <;> decide
  | obj entries =>
    cases entries with
    | nil => simp [printJson, goodHead] <;> decide
    | cons kv kvs => cases pretty <;> simp [printJson, goodHead] <;> decide

/-- Text with a good head survives `trim` nonempty. -/
theorem jsTrim_goodHead {l : JStr} (h : goodHead l = true) :
    (jsTrim l).isEmpty = false := by
  cases l with
  | nil => simp [goodHead] at h
  | cons c t =>
    simp only [goodHead, Bool.and_eq_true, Bool.not_eq_true'] at h
    obtain ⟨⟨⟨-, hjs⟩, -⟩, -⟩ := h
    have h1 : (c :: t).dropWhile isJsWs = c :: t := by
      simp [List.dropWhile_cons, hjs]
    rw [jsTrim, h1]
    suffices hne : (c :: t).reverse.dropWhile isJsWs ≠ [] by
      cases hd : (c :: t).reverse.dropWhile isJsWs with
      | nil => exact absurd hd hne
      | cons d u => simp [hd]
    intro hnil
    have := List.dropWhile_eq_nil_iff.mp hnil c (by simp)
    rw [hjs] at this
    cases this

theorem hexValCI_hexDigitLower_fin :
    ∀ k : Fin 16, hexValCI (hexDigitLower k) = some k := by decide

theorem hexValCI_hexDigitLower (k : Nat) (h : k < 16) :
    hexValCI (hexDigitLower k) = some k := hexValCI_hexDigitLower_fin ⟨k, h⟩

theorem parseStringBody_quote (rest : JStr) :
    parseStringBody ('"' :: rest) = some ([], rest) := by
  rw [parseStringBody.eq_def]
  simp

theorem parseStringBody_raw {c : Char} (h1 : c ≠ '"') (h2 : c ≠ '\\')
    (h3 : ¬c.toNat < 32) (rest : JStr) :
    parseStringBody (c :: rest) =
      (parseStringBody rest).map (fun p => (c :: p.1, p.2)) := by
  rw [parseStringBody.eq_def]
  simp only [if_neg h1, if_neg h2, if_neg h3]

theorem parseStringBody_simpleEsc {e ch : Char} (he : e ≠ 'u')
    (hs : simpleEscape e = some ch) (rest : JStr) :
    parseStringBody ('\\' :: e :: rest) =
      (parseStringBody rest).map (fun p => (ch :: p.1, p.2)) := by
  rw [parseStringBody.eq_def]
  dsimp only []
  rw [if_neg (show ('\\' : Char) ≠ '\"' from by decide), if_pos rfl]
  split
  · rename_i rest1 heq
    simp at heq
  · rename_i rest1 a b c2 d rest3 heq
    injection heq with hhead _
    exact absurd hhead he
  · rename_i rest1 e2 rest2 hnot heq
    injection heq with hhead htail
    subst hhead
    subst htail
    rw [hs]

theorem decodeUEscape_bmp {a b c2 d : Char} {va vb vc vd : Nat}
    (ha : hexValCI a = some va) (hb : hexValCI b = some vb)
    (hc : hexValCI c2 = some vc) (hd : hexValCI d = some vd)
    (hv : Nat.isValidChar (va * 4096 + vb * 256 + vc * 16 + vd)) (rest : JStr) :
    decodeUEscape a b c2 d rest =
      some (Char.ofNat (va * 4096 + vb * 256 + vc * 16 + vd), rest) := by
  unfold decodeUEscape
  rw [ha, hb, hc, hd]
  simp only [if_pos hv]

theorem parseStringBody_uEsc {a b c2 d ch : Char} {rest r : JStr}
    (h : decodeUEscape a b c2 d rest = some (ch, r)) :
    parseStringBody ('\\' :: 'u' :: a :: b :: c2 :: d :: rest) =
      (parseStringBody r).map (fun p => (ch :: p.1, p.2)) := by
  rw [parseStringBody.eq_def]
  dsimp only []
  rw [if_neg (show ('\\' : Char) ≠ '\"' from by decide), if_pos rfl]
  split
  · rename_i rest1 heq
    simp at heq
  · rename_i rest1 a2 b2 c22 d2 rest3 heq
    injection heq with _ h1
    injection h1 with ha h2
    injection h2 with hb h3
    injection h3 with hc h4
    injection h4 with hd h5
    subst ha
    subst hb
    subst hc
    subst hd
    subst h5
    split
    · rename_i ch2 r2 heq2
      rw [h] at heq2
      have hp := Option.some.inj heq2
      have hc1 : ch = ch2 := congrArg Prod.fst hp
      have hc2 : r = r2 := congrArg Prod.snd hp
      subst hc1
      subst hc2
      rfl
    · rename_i heq2
      rw [h] at heq2
      simp at heq2
  · rename_i rest1 e2 rest2 hnot heq
    injection heq with h1 h2
    exact absurd (hnot a b c2 d rest h1.symm h2.symm) (fun f => f)

theorem numBoundary_wsClose {w : JStr} (hw : wsOnly w) {c : Char} {l : JStr}
    (hc : isNumTokChar c = false) : numBoundary (w ++ c :: l) := by
  cases w with
  | nil => simpa [numBoundary] using hc
  | cons a t =>
    have ha := hw a (by simp)
    simpa [numBoundary] using ws_not_numchar ha

theorem goodHead_cons {l : JStr} (h : goodHead l = true) :
    ∃ c t, l = c :: t ∧ isJsonWs c = false ∧ c ≠ ']' ∧ c ≠ '}' := by
  cases l with
  | nil => simp [goodHead] at h
  | cons c t =>
    simp only [goodHead, Bool.and_eq_true, Bool.not_eq_true',
      decide_eq_false_iff_not] at h
    exact ⟨c, t, rfl, h.1.1.1, h.1.2, h.2⟩

theorem goodHead_append {l m : JStr} (h : goodHead l = true) :
    goodHead (l ++ m) = true := by
  cases l with
  | nil => simp [goodHead] at h
  | cons c t => simpa [goodHead] using h

theorem skipWs_goodHead {l : JStr} (h : goodHead l = true) : skipWs l = l := by
  obtain ⟨c, t, rfl, hws, -, -⟩ := goodHead_cons h
  exact skipWs_cons_not hws t

theorem wsOnly_spaces (n : Nat) : wsOnly (List.replicate n ' ') := by
  intro c hc
  rw [List.eq_of_mem_replicate hc]
  decide

/-- The head of a printed element list is the head of its first element. -/
theorem printElemsJ_head (pretty : Bool) (ind : Nat) (x : Json)
    (xs : List Json) :
    ∃ tailL, printElemsJ pretty ind (x :: xs) =
      printJson pretty ind x ++ tailL := by
  cases xs with
  | nil => exact ⟨[], by rw [printElemsJ, List.append_nil]⟩
  | cons y ys =>
    exact ⟨(if pretty then ',' :: '\n' :: List.replicate ind ' ' else [',']) ++
      printElemsJ pretty ind (y :: ys), by rw [printElemsJ, List.append_assoc]⟩

theorem printElemsJ_goodHead (pretty : Bool) (ind : Nat) {x : Json}
    (xs : List Json) (hx : WFJson x) :
    goodHead (printElemsJ pretty ind (x :: xs)) = true := by
  obtain ⟨tailL, heq⟩ := printElemsJ_head pretty ind x xs
  rw [heq]
  exact goodHead_append (printJson_goodHead pretty ind x hx)

/-- The open-bracket continuation with a computed lookahead. -/
theorem arrBranch_ws (f : Nat) {r X : JStr} (h : skipWs r = X)
    (hg : goodHead X = true) :
    (match skipWs r with
      | ']' :: rest2 => some (.arr [], rest2)
      | cs2 => (parseElems f cs2).map (fun p => (Json.arr p.1, p.2))) =
      (parseElems f X).map (fun p => (Json.arr p.1, p.2)) := by
  obtain ⟨c, t, rfl, -, hne, -⟩ := goodHead_cons hg
  rw [h]
  split
  · rename_i heq
    injection heq with hhead _
    exact absurd hhead hne
  · rfl

theorem objBranch_ws (f : Nat) {r X : JStr} (h : skipWs r = X)
    (hg : goodHead X = true) :
    (match skipWs r with
      | '}' :: rest2 => some (.obj [], rest2)
      | cs2 => (parseMembers f cs2).map (fun p => (Json.obj p.1, p.2))) =
      (parseMembers f X).map (fun p => (Json.obj p.1, p.2)) := by
  obtain ⟨c, t, rfl, -, -, hne⟩ := goodHead_cons hg
  rw [h]
  split
  · rename_i heq
    injection heq with hhead _
    exact absurd hhead hne
  · rfl

/-- Unescaping inverts escaping: the string parser consumes exactly the
escaped text up to the closing quote. -/
theorem parseStringBody_escape : ∀ (s rest : JStr),
    parseStringBody (s.flatMap escapeChar ++ '"' :: rest) = some (s, rest) := by
  intro s
  induction s with
  | nil =>
    intro rest
    rw [List.flatMap_nil, List.nil_append]
    exact parseStringBody_quote rest
  | cons c s' ih =>
    intro rest
    rw [List.flatMap_cons, List.append_assoc]
    by_cases h1 : c = '"'
    · subst h1
      rw [show escapeChar '"' = ['\\', '"'] from by decide]
      rw [show (['\\', '"'] : JStr) ++ (s'.flatMap escapeChar ++ '"' :: rest) =
        '\\' :: '"' :: (s'.flatMap escapeChar ++ '"' :: rest) from rfl]
      rw [parseStringBody_simpleEsc (by decide) (show simpleEscape '"' = some '"' from by decide)]
      rw [ih rest]
      rfl
    · by_cases h2 : c = '\\'
      · subst h2
        rw [show escapeChar '\\' = ['\\', '\\'] from by decide]
        rw [show (['\\', '\\'] : JStr) ++ (s'.flatMap escapeChar ++ '"' :: rest) =
          '\\' :: '\\' :: (s'.flatMap escapeChar ++ '"' :: rest) from rfl]
        rw [parseStringBody_simpleEsc (by decide)
          (show simpleEscape '\\' = some '\\' from by decide)]
        rw [ih rest]
        rfl
      · by_cases h3 : c.toNat = 8
        · rw [show escapeChar c = ['\\', 'b'] from by simp [escapeChar, h1, h2, h3]]
          rw [show (['\\', 'b'] : JStr) ++ (s'.flatMap escapeChar ++ '"' :: rest) =
            '\\' :: 'b' :: (s'.flatMap escapeChar ++ '"' :: rest) from rfl]
          rw [parseStringBody_simpleEsc (by decide)
            (show simpleEscape 'b' = some (Char.ofNat 8) from by decide)]
          rw [ih rest]
          rw [show (8 : Nat) = c.toNat from by omega, Char.ofNat_toNat]
          rfl
        · by_cases h4 : c.toNat = 12
          · rw [show escapeChar c = ['\\', 'f'] from by simp [escapeChar, h1, h2, h3, h4]]
            rw [show (['\\', 'f'] : JStr) ++ (s'.flatMap escapeChar ++ '"' :: rest) =
              '\\' :: 'f' :: (s'.flatMap escapeChar ++ '"' :: rest) from rfl]
            rw [parseStringBody_simpleEsc (by decide)
              (show simpleEscape 'f' = some (Char.ofNat 12) from by decide)]
            rw [ih rest]
            rw [show (12 : Nat) = c.toNat from by omega, Char.ofNat_toNat]
            rfl
          · by_cases h5 : c.toNat = 10
            · rw [show escapeChar c = ['\\', 'n'] from by
                simp [escapeChar, h1, h2, h3, h4, h5]]
              rw [show (['\\', 'n'] : JStr) ++ (s'.flatMap escapeChar ++ '"' :: rest) =
                '\\' :: 'n' :: (s'.flatMap escapeChar ++ '"' :: rest) from rfl]
              rw [parseStringBody_simpleEsc (by decide)
                (show simpleEscape 'n' = some (Char.ofNat 10) from by decide)]
              rw [ih rest]
              rw [show (10 : Nat) = c.toNat from by omega, Char.ofNat_toNat]
              rfl
            · by_cases h6 : c.toNat = 13
              · rw [show escapeChar c = ['\\', 'r'] from by
                  simp [escapeChar, h1, h2, h3, h4, h5, h6]]
                rw [show (['\\', 'r'] : JStr) ++ (s'.flatMap escapeChar ++ '"' :: rest) =
                  '\\' :: 'r' :: (s'.flatMap escapeChar ++ '"' :: rest) from rfl]
                rw [parseStringBody_simpleEsc (by decide)
                  (show simpleEscape 'r' = some (Char.ofNat 13) from by decide)]
                rw [ih rest]
                rw [show (13 : Nat) = c.toNat from by omega, Char.ofNat_toNat]
                rfl
              · by_cases h7 : c.toNat = 9
                · rw [show escapeChar c = ['\\', 't'] from by
                    simp [escapeChar, h1, h2, h3, h4, h5, h6, h7]]
                  rw [show (['\\', 't'] : JStr) ++ (s'.flatMap escapeChar ++ '"' :: rest) =
                    '\\' :: 't' :: (s'.flatMap escapeChar ++ '"' :: rest) from rfl]
                  rw [parseStringBody_simpleEsc (by decide)
                    (show simpleEscape 't' = some (Char.ofNat 9) from by decide)]
                  rw [ih rest]
                  rw [show (9 : Nat) = c.toNat from by omega, Char.ofNat_toNat]
                  rfl
                · by_cases h8 : c.toNat < 32
                  · rw [show escapeChar c = ['\\', 'u', '0', '0',
                        hexDigitLower (c.toNat / 16), hexDigitLower (c.toNat % 16)] from by
                      simp [escapeChar, h1, h2, h3, h4, h5, h6, h7, h8]]
                    rw [show (['\\', 'u', '0', '0', hexDigitLower (c.toNat / 16),
                        hexDigitLower (c.toNat % 16)] : JStr) ++
                        (s'.flatMap escapeChar ++ '"' :: rest) =
                      '\\' :: 'u' :: '0' :: '0' :: hexDigitLower (c.toNat / 16) ::
                        hexDigitLower (c.toNat % 16) ::
                        (s'.flatMap escapeChar ++ '"' :: rest) from rfl]
                    have hdec := decodeUEscape_bmp
                      (show hexValCI '0' = some 0 from by decide)
                      (show hexValCI '0' = some 0 from by decide)
                      (hexValCI_hexDigitLower (c.toNat / 16) (by omega))
                      (hexValCI_hexDigitLower (c.toNat % 16) (by omega))
                      (by
                        rw [show (0 : Nat) * 4096 + 0 * 256 + c.toNat / 16 * 16 +
                          c.toNat % 16 = c.toNat from by omega]
                        exact char_isValidChar c)
                      (s'.flatMap escapeChar ++ '"' :: rest)
                    rw [parseStringBody_uEsc hdec]
                    rw [ih rest]
                    rw [show (0 : Nat) * 4096 + 0 * 256 + c.toNat / 16 * 16 +
                      c.toNat % 16 = c.toNat from by omega, Char.ofNat_toNat]
                    rfl
                  · rw [show escapeChar c = [c] from by
                      simp [escapeChar, h1, h2, h3, h4, h5, h6, h7, h8]]
                    rw [List.singleton_append]
                    rw [parseStringBody_raw h1 h2 h8]
                    rw [ih rest]
                    rfl

/-- The head of a printed member list is the opening quote of its first
key. -/
theorem printMembersJ_head (pretty : Bool) (ind : Nat) (k : JStr) (x : Json)
    (kvs : List (JStr × Json)) :
    ∃ tailL, printMembersJ pretty ind ((k, x) :: kvs) = '"' :: tailL := by
  cases kvs with
  | nil =>
    rw [printMembersJ, printStr]
    simp only [List.cons_append]
    exact ⟨_, rfl⟩
  | cons kv2 kvs2 =>
    rw [printMembersJ, printStr]
    simp only [List.cons_append]
    exact ⟨_, rfl⟩

theorem printMembersJ_goodHead (pretty : Bool) (ind : Nat) (k : JStr)
    (x : Json) (kvs : List (JStr × Json)) :
    goodHead (printMembersJ pretty ind ((k, x) :: kvs)) = true := by
  obtain ⟨tailL, heq⟩ := printMembersJ_head pretty ind k x kvs
  rw [heq]
  exact @goodHead_append ['"'] tailL (by decide)

/-- One `parseMembers` step once the lookahead is an escaped key. -/
theorem parseMembers_step (f : Nat) (cs : JStr) {k r : JStr}
    (h : skipWs cs = '"' :: (k.flatMap escapeChar ++ '"' :: r)) :
    parseMembers (f + 1) cs =
      (match skipWs r with
        | ':' :: r2 =>
          match parseValue f r2 with
          | none => none
          | some (v, r3) =>
            match skipWs r3 with
            | ',' :: r4 =>
              (parseMembers f r4).map (fun p => ((k, v) :: p.1, p.2))
            | '}' :: r4 => some ([(k, v)], r4)
            | _ => none
        | _ => none) := by
  rw [parseMembers, h]
  show (match parseStringBody (List.flatMap k escapeChar ++ '"' :: r) with
    | none => none
    | some (k2, ra) =>
      match skipWs ra with
      | ':' :: r2 =>
        match parseValue f r2 with
        | none => none
        | some (v, r3) =>
          match skipWs r3 with
          | ',' :: r4 =>
            (parseMembers f r4).map
              (fun (p : List (JStr × Json) × JStr) => ((k2, v) :: p.1, p.2))
          | '}' :: r4 => some ([(k2, v)], r4)
          | _ => none
      | _ => none) = _
  rw [parseStringBody_escape]

/-- Joint parse-of-print: re-parsing a printed well-formed value (with
whitespace before it and a suitable boundary after it) succeeds and
consumes exactly the printed text. -/
theorem parse_print_joint (pretty : Bool) : ∀ fuel : Nat,
    (∀ (v : Json) (ind : Nat) (w0 rest : JStr), WFJson v → jsize v ≤ fuel →
      wsOnly w0 → numBoundary rest →
      parseValue fuel (w0 ++ (printJson pretty ind v ++ rest)) = some (v, rest)) ∧
    (∀ (items : List Json) (ind : Nat) (w0 w rest : JStr), items ≠ [] →
      (∀ e ∈ items, WFJson e) → sizeElems items ≤ fuel → wsOnly w0 → wsOnly w →
      parseElems fuel
          (w0 ++ (printElemsJ pretty ind items ++ (w ++ ']' :: rest))) =
        some (items, rest)) ∧
    (∀ (entries : List (JStr × Json)) (ind : Nat) (w0 w rest : JStr),
      entries ≠ [] → (∀ kv ∈ entries, WFJson kv.2) →
      sizeMembers entries ≤ fuel → wsOnly w0 → wsOnly w →
      parseMembers fuel
          (w0 ++ (printMembersJ pretty ind entries ++ (w ++ '}' :: rest))) =
        some (entries, rest)) := by
  intro fuel
  induction fuel with
  | zero =>
    refine ⟨?_, ?_, ?_⟩
    · intro v ind w0 rest hWF hsz _ _
      have := jsize_pos v
      omega
    · intro items ind w0 w rest hne _ hsz _ _
      exfalso
      cases items with
      | nil => exact hne rfl
      | cons a b =>
        rw [sizeElems] at hsz
        omega
    · intro entries ind w0 w rest hne _ hsz _ _
      exfalso
      cases entries with
      | nil => exact hne rfl
      | cons a b =>
        rw [sizeMembers] at hsz
        omega
  | succ fuel ih =>
    obtain ⟨IHv, IHe, IHm⟩ := ih
    refine ⟨?_, ?_, ?_⟩
    · intro v ind w0 rest hWF hsz hw0 hrest
      cases v with
      | null =>
        apply parseValue_step_null
        rw [printJson, skipWs_wsOnly_append hw0]
        exact skipWs_cons_not (by decide) _
      | bool b =>
        cases b
        · apply parseValue_step_false
          rw [printJson, skipWs_wsOnly_append hw0]
          exact skipWs_cons_not (by decide) _
        · apply parseValue_step_true
          rw [printJson, skipWs_wsOnly_append hw0]
          exact skipWs_cons_not (by decide) _
      | num tok =>
        cases hWF with
        | num _ hv hc =>
          obtain ⟨c, t, rfl⟩ :=
            List.exists_cons_of_ne_nil (validNumTok_ne_nil hv)
          have hcnum : isNumTokChar c = true := hc c (by simp)
          have hskip : skipWs (w0 ++ (printJson pretty ind (.num (c :: t)) ++
              rest)) = c :: (t ++ rest) := by
            rw [printJson, skipWs_wsOnly_append hw0]
            exact skipWs_cons_not (numchar_not_ws hcnum) _
          rw [parseValue_step_num fuel _ hskip hcnum]
          obtain ⟨htake, hdrop⟩ := @takeWhile_tok (c :: t) rest hc hrest
          have htake2 : (c :: (t ++ rest)).takeWhile isNumTokChar = c :: t := by
            rw [← List.cons_append]
            exact htake
          have hdrop2 : (c :: (t ++ rest)).dropWhile isNumTokChar = rest := by
            rw [← List.cons_append]
            exact hdrop
          rw [htake2, hdrop2, hv]
          simp
      | str s =>
        have hskip : skipWs (w0 ++ (printJson pretty ind (.str s) ++ rest)) =
            '"' :: (s.flatMap escapeChar ++ '"' :: rest) := by
          rw [printJson, printStr, skipWs_wsOnly_append hw0]
          have : ('"' :: (s.flatMap escapeChar ++ ['"'])) ++ rest =
              '"' :: (s.flatMap escapeChar ++ '"' :: rest) := by
            simp
          rw [this]
          exact skipWs_cons_not (by decide) _
        rw [parseValue_step_str fuel _ _ hskip, parseStringBody_escape s rest]
        rfl
      | arr items =>
        cases items with
        | nil =>
          have hskip : skipWs (w0 ++ (printJson pretty ind (.arr []) ++ rest)) =
              '[' :: (']' :: rest) := by
            rw [printJson, skipWs_wsOnly_append hw0]
            exact skipWs_cons_not (by decide) _
          rw [parseValue_step_arr fuel _ _ hskip, skipWs_cons_not (by decide)]
          rfl
        | cons x xs =>
          have hWFall : ∀ e ∈ x :: xs, WFJson e := by
            cases hWF with
            | arr _ h => exact h
          have hWFx : WFJson x := hWFall x (by simp)
          have hsz2 : sizeElems (x :: xs) ≤ fuel := by
            rw [jsize] at hsz
            omega
          cases hp : pretty with
          | false =>
            have hE := IHe (x :: xs) ind [] [] rest (by simp) hWFall hsz2
              wsOnly_nil wsOnly_nil
            rw [List.nil_append, List.nil_append] at hE
            rw [hp] at hE
            have hskip : skipWs (w0 ++ (printJson false ind (.arr (x :: xs)) ++
                rest)) = '[' :: (printElemsJ false ind (x :: xs) ++
                  (']' :: rest)) := by
              rw [printJson, if_neg (by decide), skipWs_wsOnly_append hw0]
              have : ('[' :: (printElemsJ false ind (x :: xs) ++ [']'])) ++
                  rest = '[' :: (printElemsJ false ind (x :: xs) ++
                    (']' :: rest)) := by
                simp
              rw [this]
              exact skipWs_cons_not (by decide) _
            rw [parseValue_step_arr fuel _ _ hskip]
            have hgood : goodHead (printElemsJ false ind (x :: xs) ++
                (']' :: rest)) = true :=
              goodHead_append (printElemsJ_goodHead false ind xs hWFx)
            rw [arrBranch_ws fuel (skipWs_goodHead hgood) hgood, hE]
            rfl
          | true =>
            have hE := IHe (x :: xs) (ind + 2) []
              ('\n' :: List.replicate ind ' ') rest (by simp) hWFall hsz2
              wsOnly_nil (wsOnly_indent ind)
            rw [List.nil_append] at hE
            rw [hp] at hE
            have hskip : skipWs (w0 ++ (printJson true ind (.arr (x :: xs)) ++
                rest)) = '[' :: ('\n' :: (List.replicate (ind + 2) ' ' ++
                  (printElemsJ true (ind + 2) (x :: xs) ++
                    ('\n' :: List.replicate ind ' ' ++ ']' :: rest)))) := by
              rw [printJson, if_pos rfl, skipWs_wsOnly_append hw0]
              have : ('[' :: '\n' :: (List.replicate (ind + 2) ' ' ++
                  printElemsJ true (ind + 2) (x :: xs) ++
                  '\n' :: (List.replicate ind ' ' ++ [']']))) ++ rest =
                  '[' :: ('\n' :: (List.replicate (ind + 2) ' ' ++
                    (printElemsJ true (ind + 2) (x :: xs) ++
                      ('\n' :: List.replicate ind ' ' ++ ']' :: rest)))) := by
                simp
              rw [this]
              exact skipWs_cons_not (by decide) _
            rw [parseValue_step_arr fuel _ _ hskip]
            have hgood : goodHead (printElemsJ true (ind + 2) (x :: xs) ++
                ('\n' :: List.replicate ind ' ' ++ ']' :: rest)) = true :=
              goodHead_append (printElemsJ_goodHead true (ind + 2) xs hWFx)
            have hskip2 : skipWs ('\n' :: (List.replicate (ind + 2) ' ' ++
                (printElemsJ true (ind + 2) (x :: xs) ++
                  ('\n' :: List.replicate ind ' ' ++ ']' :: rest)))) =
                printElemsJ true (ind + 2) (x :: xs) ++
                  ('\n' :: List.replicate ind ' ' ++ ']' :: rest) := by
              rw [skipWs_cons_ws (by decide),
                skipWs_wsOnly_append (wsOnly_spaces (ind + 2))]
              exact skipWs_goodHead hgood
            rw [arrBranch_ws fuel hskip2 hgood, hE]
            rfl
      | obj entries =>
        cases entries with
        | nil =>
          have hskip : skipWs (w0 ++ (printJson pretty ind (.obj []) ++ rest)) =
              '{' :: ('}' :: rest) := by
            rw [printJson, skipWs_wsOnly_append hw0]
            exact skipWs_cons_not (by decide) _
          rw [parseValue_step_obj fuel _ _ hskip, skipWs_cons_not (by decide)]
          rfl
        | cons kv kvs =>
          obtain ⟨k, x⟩ := kv
          have hWFall : ∀ e ∈ (k, x) :: kvs, WFJson e.2 := by
            cases hWF with
            | obj _ h => exact h
          have hsz2 : sizeMembers ((k, x) :: kvs) ≤ fuel := by
            rw [jsize] at hsz
            omega
          cases hp : pretty with
          | false =>
            have hM := IHm ((k, x) :: kvs) ind [] [] rest (by simp) hWFall hsz2
              wsOnly_nil wsOnly_nil
            rw [List.nil_append, List.nil_append] at hM
            rw [hp] at hM
            have hskip : skipWs (w0 ++
                (printJson false ind (.obj ((k, x) :: kvs)) ++ rest)) =
                '{' :: (printMembersJ false ind ((k, x) :: kvs) ++
                  ('}' :: rest)) := by
              rw [printJson, if_neg (by decide), skipWs_wsOnly_append hw0]
              have : ('{' :: (printMembersJ false ind ((k, x) :: kvs) ++
                  ['}'])) ++ rest =
                  '{' :: (printMembersJ false ind ((k, x) :: kvs) ++
                    ('}' :: rest)) := by
                simp
              rw [this]
              exact skipWs_cons_not (by decide) _
            rw [parseValue_step_obj fuel _ _ hskip]
            have hgood : goodHead (printMembersJ false ind ((k, x) :: kvs) ++
                ('}' :: rest)) = true :=
              goodHead_append (printMembersJ_goodHead false ind k x kvs)
            rw [objBranch_ws fuel (skipWs_goodHead hgood) hgood, hM]
            rfl
          | true =>
            have hM := IHm ((k, x) :: kvs) (ind + 2) []
              ('\n' :: List.replicate ind ' ') rest (by simp) hWFall hsz2
              wsOnly_nil (wsOnly_indent ind)
            rw [List.nil_append] at hM
            rw [hp] at hM
            have hskip : skipWs (w0 ++
                (printJson true ind (.obj ((k, x) :: kvs)) ++ rest)) =
                '{' :: ('\n' :: (List.replicate (ind + 2) ' ' ++
                  (printMembersJ true (ind + 2) ((k, x) :: kvs) ++
                    ('\n' :: List.replicate ind ' ' ++ '}' :: rest)))) := by
              rw [printJson, if_pos rfl, skipWs_wsOnly_append hw0]
              have : ('{' :: '\n' :: (List.replicate (ind + 2) ' ' ++
                  printMembersJ true (ind + 2) ((k, x) :: kvs) ++
                  '\n' :: (List.replicate ind ' ' ++ ['}']))) ++ rest =
                  '{' :: ('\n' :: (List.replicate (ind + 2) ' ' ++
                    (printMembersJ true (ind + 2) ((k, x) :: kvs) ++
                      ('\n' :: List.replicate ind ' ' ++ '}' :: rest)))) := by
                simp
              rw [this]
              exact skipWs_cons_not (by decide) _
            rw [parseValue_step_obj fuel _ _ hskip]
            have hgood : goodHead (printMembersJ true (ind + 2) ((k, x) :: kvs) ++
                ('\n' :: List.replicate ind ' ' ++ '}' :: rest)) = true :=
              goodHead_append (printMembersJ_goodHead true (ind + 2) k x kvs)
            have hskip2 : skipWs ('\n' :: (List.replicate (ind + 2) ' ' ++
                (printMembersJ true (ind + 2) ((k, x) :: kvs) ++
                  ('\n' :: List.replicate ind ' ' ++ '}' :: rest)))) =
                printMembersJ true (ind + 2) ((k, x) :: kvs) ++
                  ('\n' :: List.replicate ind ' ' ++ '}' :: rest) := by
              rw [skipWs_cons_ws (by decide),
                skipWs_wsOnly_append (wsOnly_spaces (ind + 2))]
              exact skipWs_goodHead hgood
            rw [objBranch_ws fuel hskip2 hgood, hM]
            rfl
    · intro items ind w0 w rest hne hWFall hsz hw0 hw
      cases items with
      | nil => exact absurd rfl hne
      | cons v vs =>
        have hWFv : WFJson v := hWFall v (by simp)
        have hszv : jsize v ≤ fuel := by
          rw [sizeElems] at hsz
          omega
        cases vs with
        | nil =>
          rw [parseElems, printElemsJ]
          have hv := IHv v ind w0 (w ++ ']' :: rest) hWFv hszv hw0
            (numBoundary_wsClose hw (by decide))
          rw [hv]
          show (match skipWs (w ++ ']' :: rest) with
            | ',' :: r2 => (parseElems fuel r2).map (fun p => (v :: p.1, p.2))
            | ']' :: r2 => some ([v], r2)
            | _ => none) = some ([v], rest)
          rw [skipWs_wsOnly_append hw, skipWs_cons_not (by decide)]
          rfl
        | cons v2 vs2 =>
          have hszr : sizeElems (v2 :: vs2) ≤ fuel := by
            rw [sizeElems] at hsz
            omega
          rw [parseElems, printElemsJ]
          cases hp : pretty with
          | false =>
            have halign : (printJson false ind v ++
                (if (false : Bool) then ',' :: '\n' :: List.replicate ind ' '
                  else [',']) ++ printElemsJ false ind (v2 :: vs2)) ++
                (w ++ ']' :: rest) =
                printJson false ind v ++
                  (',' :: (printElemsJ false ind (v2 :: vs2) ++
                    (w ++ ']' :: rest))) := by
              simp
            rw [halign]
            have hv := IHv v ind w0
              (',' :: (printElemsJ false ind (v2 :: vs2) ++ (w ++ ']' :: rest)))
              hWFv hszv hw0 (by simp only [numBoundary]; decide)
            rw [hp] at hv
            rw [hv]
            show (match skipWs (',' :: (printElemsJ false ind (v2 :: vs2) ++
                (w ++ ']' :: rest))) with
              | ',' :: r2 => (parseElems fuel r2).map (fun p => (v :: p.1, p.2))
              | ']' :: r2 => some ([v], r2)
              | _ => none) = some (v :: v2 :: vs2, rest)
            rw [skipWs_cons_not (by decide)]
            show (parseElems fuel (printElemsJ false ind (v2 :: vs2) ++
                (w ++ ']' :: rest))).map (fun p => (v :: p.1, p.2)) =
              some (v :: v2 :: vs2, rest)
            have hE := IHe (v2 :: vs2) ind [] w rest (by simp)
              (fun e he => hWFall e (by simp [he]))
              hszr wsOnly_nil hw
            rw [List.nil_append] at hE
            rw [hp] at hE
            rw [hE]
            rfl
          | true =>
            have halign : (printJson true ind v ++
                (if (true : Bool) then ',' :: '\n' :: List.replicate ind ' '
                  else [',']) ++ printElemsJ true ind (v2 :: vs2)) ++
                (w ++ ']' :: rest) =
                printJson true ind v ++
                  (',' :: ('\n' :: (List.replicate ind ' ' ++
                    (printElemsJ true ind (v2 :: vs2) ++ (w ++ ']' :: rest))))) := by
              simp
            rw [halign]
            have hv := IHv v ind w0
              (',' :: ('\n' :: (List.replicate ind ' ' ++
                (printElemsJ true ind (v2 :: vs2) ++ (w ++ ']' :: rest)))))
              hWFv hszv hw0 (by simp only [numBoundary]; decide)
            rw [hp] at hv
            rw [hv]
            show (match skipWs (',' :: ('\n' :: (List.replicate ind ' ' ++
                (printElemsJ true ind (v2 :: vs2) ++ (w ++ ']' :: rest))))) with
              | ',' :: r2 => (parseElems fuel r2).map (fun p => (v :: p.1, p.2))
              | ']' :: r2 => some ([v], r2)
              | _ => none) = some (v :: v2 :: vs2, rest)
            rw [skipWs_cons_not (by decide)]
            show (parseElems fuel ('\n' :: (List.replicate ind ' ' ++
                (printElemsJ true ind (v2 :: vs2) ++
                  (w ++ ']' :: rest))))).map (fun p => (v :: p.1, p.2)) =
              some (v :: v2 :: vs2, rest)
            have hE := IHe (v2 :: vs2) ind ('\n' :: List.replicate ind ' ') w
              rest (by simp) (fun e he => hWFall e (by simp [he]))
              hszr (wsOnly_indent ind) hw
            have halign2 : ('\n' :: List.replicate ind ' ') ++
                (printElemsJ true ind (v2 :: vs2) ++ (w ++ ']' :: rest)) =
                '\n' :: (List.replicate ind ' ' ++
                  (printElemsJ true ind (v2 :: vs2) ++ (w ++ ']' :: rest))) := by
              simp
            rw [hp] at hE
            rw [halign2] at hE
            rw [hE]
            rfl
    · intro entries ind w0 w rest hne hWFall hsz hw0 hw
      cases entries with
      | nil => exact absurd rfl hne
      | cons kv kvs =>
        obtain ⟨k, x⟩ := kv
        have hWFx : WFJson x := hWFall (k, x) (by simp)
        cases kvs with
        | nil =>
          have hszx : jsize x ≤ fuel := by
            rw [sizeMembers] at hsz
            have hsz2 : 1 + jsize x + sizeMembers [] ≤ fuel + 1 := hsz
            rw [sizeMembers] at hsz2
            omega
          cases hp : pretty with
          | false =>
            have hskip : skipWs (w0 ++ (printMembersJ false ind [(k, x)] ++
                (w ++ '}' :: rest))) =
                '"' :: (List.flatMap k escapeChar ++ '"' ::
                  (':' :: (printJson false ind x ++ (w ++ '}' :: rest)))) := by
              rw [skipWs_wsOnly_append hw0]
              have halign : printMembersJ false ind [(k, x)] ++
                  (w ++ '}' :: rest) =
                  '"' :: (List.flatMap k escapeChar ++ '"' ::
                    (':' :: (printJson false ind x ++ (w ++ '}' :: rest)))) := by
                rw [printMembersJ, printStr]
                simp
              rw [halign]
              exact skipWs_cons_not (by decide) _
            rw [parseMembers_step fuel _ hskip]
            rw [skipWs_cons_not (by decide)]
            show (match parseValue fuel (printJson false ind x ++
                (w ++ '}' :: rest)) with
              | none => none
              | some (v, r3) =>
                match skipWs r3 with
                | ',' :: r4 =>
                  (parseMembers fuel r4).map
                    (fun (p : List (JStr × Json) × JStr) =>
                      ((k, v) :: p.1, p.2))
                | '}' :: r4 => some ([(k, v)], r4)
                | _ => none) = some ([(k, x)], rest)
            have hv := IHv x ind [] (w ++ '}' :: rest) hWFx hszx wsOnly_nil
              (numBoundary_wsClose hw (by decide))
            rw [List.nil_append] at hv
            rw [hp] at hv
            rw [hv]
            show (match skipWs (w ++ '}' :: rest) with
              | ',' :: r4 =>
                (parseMembers fuel r4).map
                  (fun (p : List (JStr × Json) × JStr) =>
                    ((k, x) :: p.1, p.2))
              | '}' :: r4 => some ([(k, x)], r4)
              | _ => none) = some ([(k, x)], rest)
            rw [skipWs_wsOnly_append hw, skipWs_cons_not (by decide)]
            rfl
          | true =>
            have hskip : skipWs (w0 ++ (printMembersJ true ind [(k, x)] ++
                (w ++ '}' :: rest))) =
                '"' :: (List.flatMap k escapeChar ++ '"' ::
                  (':' :: (' ' :: (printJson true ind x ++
                    (w ++ '}' :: rest))))) := by
              rw [skipWs_wsOnly_append hw0]
              have halign : printMembersJ true ind [(k, x)] ++
                  (w ++ '}' :: rest) =
                  '"' :: (List.flatMap k escapeChar ++ '"' ::
                    (':' :: (' ' :: (printJson true ind x ++
                      (w ++ '}' :: rest))))) := by
                rw [printMembersJ, printStr]
                simp
              rw [halign]
              exact skipWs_cons_not (by decide) _
            rw [parseMembers_step fuel _ hskip]
            rw [skipWs_cons_not (by decide)]
            show (match parseValue fuel (' ' :: (printJson true ind x ++
                (w ++ '}' :: rest))) with
              | none => none
              | some (v, r3) =>
                match skipWs r3 with
                | ',' :: r4 =>
                  (parseMembers fuel r4).map
                    (fun (p : List (JStr × Json) × JStr) =>
                      ((k, v) :: p.1, p.2))
                | '}' :: r4 => some ([(k, v)], r4)
                | _ => none) = some ([(k, x)], rest)
            have hv := IHv x ind [' '] (w ++ '}' :: rest) hWFx hszx
              (wsOnly_spaces 1) (numBoundary_wsClose hw (by decide))
            rw [hp] at hv
            rw [List.singleton_append] at hv
            rw [hv]
            show (match skipWs (w ++ '}' :: rest) with
              | ',' :: r4 =>
                (parseMembers fuel r4).map
                  (fun (p : List (JStr × Json) × JStr) =>
                    ((k, x) :: p.1, p.2))
              | '}' :: r4 => some ([(k, x)], r4)
              | _ => none) = some ([(k, x)], rest)
            rw [skipWs_wsOnly_append hw, skipWs_cons_not (by decide)]
            rfl
        | cons kv2 kvs2 =>
          have hszx : jsize x ≤ fuel := by
            rw [sizeMembers] at hsz
            have hsz2 : 1 + jsize x + sizeMembers (kv2 :: kvs2) ≤ fuel + 1 := hsz
            omega
          have hszr : sizeMembers (kv2 :: kvs2) ≤ fuel := by
            rw [sizeMembers] at hsz
            have hsz2 : 1 + jsize x + sizeMembers (kv2 :: kvs2) ≤ fuel + 1 := hsz
            omega
          have hWFr : ∀ e ∈ kv2 :: kvs2, WFJson e.2 :=
            fun e he => hWFall e (by simp [he])
          cases hp : pretty with
          | false =>
            have hskip : skipWs (w0 ++
                (printMembersJ false ind ((k, x) :: kv2 :: kvs2) ++
                  (w ++ '}' :: rest))) =
                '"' :: (List.flatMap k escapeChar ++ '"' ::
                  (':' :: (printJson false ind x ++
                    (',' :: (printMembersJ false ind (kv2 :: kvs2) ++
                      (w ++ '}' :: rest)))))) := by
              rw [skipWs_wsOnly_append hw0]
              have halign : printMembersJ false ind ((k, x) :: kv2 :: kvs2) ++
                  (w ++ '}' :: rest) =
                  '"' :: (List.flatMap k escapeChar ++ '"' ::
                    (':' :: (printJson false ind x ++
                      (',' :: (printMembersJ false ind (kv2 :: kvs2) ++
                        (w ++ '}' :: rest)))))) := by
                rw [printMembersJ, printStr]
                simp
              rw [halign]
              exact skipWs_cons_not (by decide) _
            rw [parseMembers_step fuel _ hskip]
            rw [skipWs_cons_not (by decide)]
            show (match parseValue fuel (printJson false ind x ++
                (',' :: (printMembersJ false ind (kv2 :: kvs2) ++
                  (w ++ '}' :: rest)))) with
              | none => none
              | some (v, r3) =>
                match skipWs r3 with
                | ',' :: r4 =>
                  (parseMembers fuel r4).map
                    (fun (p : List (JStr × Json) × JStr) =>
                      ((k, v) :: p.1, p.2))
                | '}' :: r4 => some ([(k, v)], r4)
                | _ => none) = some ((k, x) :: kv2 :: kvs2, rest)
            have hv := IHv x ind []
              (',' :: (printMembersJ false ind (kv2 :: kvs2) ++
                (w ++ '}' :: rest)))
              hWFx hszx wsOnly_nil (by simp only [numBoundary]; decide)
            rw [List.nil_append] at hv
            rw [hp] at hv
            rw [hv]
            show (match skipWs (',' :: (printMembersJ false ind (kv2 :: kvs2) ++
                (w ++ '}' :: rest))) with
              | ',' :: r4 =>
                (parseMembers fuel r4).map
                  (fun (p : List (JStr × Json) × JStr) =>
                    ((k, x) :: p.1, p.2))
              | '}' :: r4 => some ([(k, x)], r4)
              | _ => none) = some ((k, x) :: kv2 :: kvs2, rest)
            rw [skipWs_cons_not (by decide)]
            show (parseMembers fuel (printMembersJ false ind (kv2 :: kvs2) ++
                (w ++ '}' :: rest))).map
                (fun (p : List (JStr × Json) × JStr) =>
                  ((k, x) :: p.1, p.2)) = some ((k, x) :: kv2 :: kvs2, rest)
            have hM := IHm (kv2 :: kvs2) ind [] w rest (by simp) hWFr hszr
              wsOnly_nil hw
            rw [List.nil_append] at hM
            rw [hp] at hM
            rw [hM]
            rfl
          | true =>
            have hskip : skipWs (w0 ++
                (printMembersJ true ind ((k, x) :: kv2 :: kvs2) ++
                  (w ++ '}' :: rest))) =
                '"' :: (List.flatMap k escapeChar ++ '"' ::
                  (':' :: (' ' :: (printJson true ind x ++
                    (',' :: ('\n' :: (List.replicate ind ' ' ++
                      (printMembersJ true ind (kv2 :: kvs2) ++
                        (w ++ '}' :: rest))))))))) := by
              rw [skipWs_wsOnly_append hw0]
              have halign : printMembersJ true ind ((k, x) :: kv2 :: kvs2) ++
                  (w ++ '}' :: rest) =
                  '"' :: (List.flatMap k escapeChar ++ '"' ::
                    (':' :: (' ' :: (printJson true ind x ++
                      (',' :: ('\n' :: (List.replicate ind ' ' ++
                        (printMembersJ true ind (kv2 :: kvs2) ++
                          (w ++ '}' :: rest))))))))) := by
                rw [printMembersJ, printStr]
                simp
              rw [halign]
              exact skipWs_cons_not (by decide) _
            rw [parseMembers_step fuel _ hskip]
            rw [skipWs_cons_not (by decide)]
            show (match parseValue fuel (' ' :: (printJson true ind x ++
                (',' :: ('\n' :: (List.replicate ind ' ' ++
                  (printMembersJ true ind (kv2 :: kvs2) ++
                    (w ++ '}' :: rest))))))) with
              | none => none
              | some (v, r3) =>
                match skipWs r3 with
                | ',' :: r4 =>
                  (parseMembers fuel r4).map
                    (fun (p : List (JStr × Json) × JStr) =>
                      ((k, v) :: p.1, p.2))
                | '}' :: r4 => some ([(k, v)], r4)
                | _ => none) = some ((k, x) :: kv2 :: kvs2, rest)
            have hv := IHv x ind [' ']
              (',' :: ('\n' :: (List.replicate ind ' ' ++
                (printMembersJ true ind (kv2 :: kvs2) ++
                  (w ++ '}' :: rest)))))
              hWFx hszx (wsOnly_spaces 1) (by simp only [numBoundary]; decide)
            rw [hp] at hv
            rw [List.singleton_append] at hv
            rw [hv]
            show (match skipWs (',' :: ('\n' :: (List.replicate ind ' ' ++
                (printMembersJ true ind (kv2 :: kvs2) ++
                  (w ++ '}' :: rest))))) with
              | ',' :: r4 =>
                (parseMembers fuel r4).map
                  (fun (p : List (JStr × Json) × JStr) =>
                    ((k, x) :: p.1, p.2))
              | '}' :: r4 => some ([(k, x)], r4)
              | _ => none) = some ((k, x) :: kv2 :: kvs2, rest)
            rw [skipWs_cons_not (by decide)]
            show (parseMembers fuel ('\n' :: (List.replicate ind ' ' ++
                (printMembersJ true ind (kv2 :: kvs2) ++
                  (w ++ '}' :: rest))))).map
                (fun (p : List (JStr × Json) × JStr) =>
                  ((k, x) :: p.1, p.2)) = some ((k, x) :: kv2 :: kvs2, rest)
            have hM := IHm (kv2 :: kvs2) ind ('\n' :: List.replicate ind ' ')
              w rest (by simp) hWFr hszr (wsOnly_indent ind) hw
            rw [hp] at hM
            have halignM : ('\n' :: List.replicate ind ' ') ++
                (printMembersJ true ind (kv2 :: kvs2) ++ (w ++ '}' :: rest)) =
                '\n' :: (List.replicate ind ' ' ++
                  (printMembersJ true ind (kv2 :: kvs2) ++
                    (w ++ '}' :: rest))) := by
              simp
            rw [halignM] at hM
            rw [hM]
            rfl

/-- The printed text is at least as long as the fuel the value needs, so
the `length + 1` fuel budget of `jsonParse` always suffices. -/
theorem jsize_le_printJson (pretty : Bool) :
    ∀ v : Json, WFJson v → ∀ ind : Nat,
      jsize v ≤ (printJson pretty ind v).length := by
  have helems : ∀ l : List Json,
      (∀ e ∈ l, WFJson e → ∀ ind, jsize e ≤ (printJson pretty ind e).length) →
      (∀ e ∈ l, WFJson e) → ∀ ind,
      sizeElems l ≤ (printElemsJ pretty ind l).length + 1 := by
    intro l
    induction l with
    | nil =>
      intro _ _ ind
      rw [sizeElems, printElemsJ]
      simp
    | cons x xs ihl =>
      intro hall hwf ind
      cases xs with
      | nil =>
        rw [sizeElems, sizeElems, printElemsJ]
        have h1 := hall x (by simp) (hwf x (by simp)) ind
        omega
      | cons y ys =>
        rw [sizeElems, printElemsJ]
        have h1 := hall x (by simp) (hwf x (by simp)) ind
        have h2 := ihl (fun e he => hall e (by simp [he]))
          (fun e he => hwf e (by simp [he])) ind
        rw [List.length_append, List.length_append]
        have hsep : 1 ≤ (if pretty then ',' :: '\n' :: List.replicate ind ' '
            else [',']).length := by
          cases pretty <;> simp
        omega
  have hmems : ∀ l : List (JStr × Json),
      (∀ kv ∈ l, WFJson kv.2 →
        ∀ ind, jsize kv.2 ≤ (printJson pretty ind kv.2).length) →
      (∀ kv ∈ l, WFJson kv.2) → ∀ ind,
      sizeMembers l ≤ (printMembersJ pretty ind l).length + 1 := by
    intro l
    induction l with
    | nil =>
      intro _ _ ind
      rw [sizeMembers, printMembersJ]
      simp
    | cons kv rest ihl =>
      obtain ⟨k, x⟩ := kv
      intro hall hwf ind
      cases rest with
      | nil =>
        have hsm : sizeMembers [(k, x)] = 1 + jsize x := rfl
        rw [hsm, printMembersJ]
        have h1 := hall (k, x) (by simp) (hwf (k, x) (by simp)) ind
        have h1' : jsize x ≤ (printJson pretty ind x).length := h1
        rw [List.length_append, List.length_append]
        omega
      | cons kv2 rest2 =>
        have hsm : sizeMembers ((k, x) :: kv2 :: rest2) =
            1 + jsize x + sizeMembers (kv2 :: rest2) := rfl
        rw [hsm, printMembersJ]
        have h1 := hall (k, x) (by simp) (hwf (k, x) (by simp)) ind
        have h1' : jsize x ≤ (printJson pretty ind x).length := h1
        have h2 := ihl (fun e he => hall e (by simp [he]))
          (fun e he => hwf e (by simp [he])) ind
        have hsep : 1 ≤ (if pretty then ',' :: '\n' :: List.replicate ind ' '
            else [',']).length := by
          cases pretty <;> simp
        rw [List.length_append, List.length_append, List.length_append]
        omega
  refine jsonIndOn
    (fun v => WFJson v → ∀ ind, jsize v ≤ (printJson pretty ind v).length)
    ?_ ?_ ?_ ?_ ?_ ?_
  · intro _ ind
    rw [jsize, printJson]
    decide
  · intro b _ ind
    cases b
    · rw [jsize, printJson]
      decide
    · rw [jsize, printJson]
      decide
  · intro t hWF ind
    cases hWF with
    | num _ hv hc =>
      rw [jsize, printJson]
      have hne := validNumTok_ne_nil hv
      cases t with
      | nil => exact absurd rfl hne
      | cons a b => simp
  · intro s _ ind
    rw [jsize, printJson, printStr]
    simp only [List.length_cons]
    omega
  · intro l hP hWF ind
    cases l with
    | nil =>
      rw [jsize, sizeElems, printJson]
      decide
    | cons x xs =>
      have hwfall : ∀ e ∈ x :: xs, WFJson e := by
        cases hWF with
        | arr _ h => exact h
      have hel := helems (x :: xs) hP hwfall
      rw [jsize]
      cases hq : pretty with
      | false =>
        rw [hq] at hel
        rw [printJson, if_neg (by decide)]
        have h1 := hel ind
        simp only [List.length_cons, List.length_append,
          List.length_singleton] at h1 ⊢
        omega
      | true =>
        rw [hq] at hel
        rw [printJson, if_pos rfl]
        have h1 := hel (ind + 2)
        simp only [List.length_cons, List.length_append,
          List.length_singleton, List.length_replicate] at h1 ⊢
        omega
  · intro m hP hWF ind
    cases m with
    | nil =>
      rw [jsize, sizeMembers, printJson]
      decide
    | cons kv kvs =>
      have hwfall : ∀ e ∈ kv :: kvs, WFJson e.2 := by
        cases hWF with
        | obj _ h => exact h
      have hml := hmems (kv :: kvs) hP hwfall
      rw [jsize]
      cases hq : pretty with
      | false =>
        rw [hq] at hml
        rw [printJson, if_neg (by decide)]
        have h1 := hml ind
        simp only [List.length_cons, List.length_append,
          List.length_singleton] at h1 ⊢
        omega
      | true =>
        rw [hq] at hml
        rw [printJson, if_pos rfl]
        have h1 := hml (ind + 2)
        simp only [List.length_cons, List.length_append,
          List.length_singleton, List.length_replicate] at h1 ⊢
        omega

/-- Everything the parser produces is well-formed: number tokens pass the
grammar check and consist of number-token characters. -/
theorem parse_WF : ∀ fuel : Nat,
    (∀ cs v r, parseValue fuel cs = some (v, r) → WFJson v) ∧
    (∀ cs vs r, parseElems fuel cs = some (vs, r) → ∀ e ∈ vs, WFJson e) ∧
    (∀ cs ms r, parseMembers fuel cs = some (ms, r) → ∀ kv ∈ ms, WFJson kv.2) := by
  intro fuel
  induction fuel with
  | zero =>
    refine ⟨?_, ?_, ?_⟩
    · intro cs v r h
      rw [parseValue] at h
      exact Option.noConfusion h
    · intro cs vs r h
      rw [parseElems] at h
      exact Option.noConfusion h
    · intro cs ms r h
      rw [parseMembers] at h
      exact Option.noConfusion h
  | succ fuel ih =>
    obtain ⟨IHv, IHe, IHm⟩ := ih
    refine ⟨?_, ?_, ?_⟩
    · intro cs v r h
      rw [parseValue] at h
      split at h
      · exact Option.noConfusion h
      · split_ifs at h with h1 h2 h3 h4 h5 h6 h7
        · split at h
          · injection h with h'
            injection h' with hv hr
            subst hv
            exact WFJson.arr [] (by simp)
          · rw [Option.map_eq_some'] at h
            obtain ⟨⟨vs, r2⟩, hpe, hmk⟩ := h
            injection hmk with hv hr
            subst hv
            exact WFJson.arr vs (IHe _ _ _ hpe)
        · split at h
          · injection h with h'
            injection h' with hv hr
            subst hv
            exact WFJson.obj [] (by simp)
          · rw [Option.map_eq_some'] at h
            obtain ⟨⟨ms, r2⟩, hpm, hmk⟩ := h
            injection hmk with hv hr
            subst hv
            exact WFJson.obj ms (IHm _ _ _ hpm)
        · rw [Option.map_eq_some'] at h
          obtain ⟨⟨str1, r2⟩, hps, hmk⟩ := h
          injection hmk with hv hr
          subst hv
          exact WFJson.str str1
        · split at h
          · injection h with h'
            injection h' with hv hr
            subst hv
            exact WFJson.null
          · exact Option.noConfusion h
        · split at h
          · injection h with h'
            injection h' with hv hr
            subst hv
            exact WFJson.bool true
          · exact Option.noConfusion h
        · split at h
          · injection h with h'
            injection h' with hv hr
            subst hv
            exact WFJson.bool false
          · exact Option.noConfusion h
        · injection h with h'
          injection h' with hv hr
          subst hv
          exact WFJson.num _ h7 (fun ch hch => List.mem_takeWhile_imp hch)
    · intro cs vs r h
      rw [parseElems] at h
      split at h
      · exact Option.noConfusion h
      · rename_i v1 r1 heq1
        split at h
        · rw [Option.map_eq_some'] at h
          obtain ⟨⟨vs2, r3⟩, hpe, hmk⟩ := h
          injection hmk with hv hr
          subst hv
          intro e he
          rcases List.mem_cons.mp he with he1 | he2
          · subst he1
            exact IHv _ _ _ heq1
          · exact IHe _ _ _ hpe e he2
        · injection h with h'
          injection h' with hv hr
          subst hv
          intro e he
          rw [List.mem_singleton] at he
          subst he
          exact IHv _ _ _ heq1
        · exact Option.noConfusion h
    · intro cs ms r h
      rw [parseMembers] at h
      split at h
      · split at h
        · exact Option.noConfusion h
        · rename_i k1 r1 heqs
          split at h
          · split at h
            · exact Option.noConfusion h
            · rename_i v1 r3 heqv
              split at h
              · rw [Option.map_eq_some'] at h
                obtain ⟨⟨ms2, r5⟩, hpm, hmk⟩ := h
                injection hmk with hm hr
                subst hm
                intro kv hkv
                rcases List.mem_cons.mp hkv with hk1 | hk2
                · subst hk1
                  exact IHv _ _ _ heqv
                · exact IHm _ _ _ hpm kv hk2
              · injection h with h'
                injection h' with hm hr
                subst hm
                intro kv hkv
                rw [List.mem_singleton] at hkv
                subst hkv
                exact IHv _ _ _ heqv
              · exact Option.noConfusion h
          · exact Option.noConfusion h
      · exact Option.noConfusion h

/-- Re-parsing printed text recovers the value exactly. -/
theorem jsonParse_print (pretty : Bool) (v : Json) (hWF : WFJson v) :
    jsonParse (printJson pretty 0 v) = some v := by
  have hsz : jsize v ≤ (printJson pretty 0 v).length + 1 :=
    le_trans (jsize_le_printJson pretty v hWF 0) (Nat.le_succ _)
  have h := (parse_print_joint pretty ((printJson pretty 0 v).length + 1)).1
    v 0 [] [] hWF hsz wsOnly_nil trivial
  rw [List.nil_append, List.append_nil] at h
  rw [jsonParse, h]
  rfl

theorem safeJsonParse_print (pretty : Bool) (v : Json) (hWF : WFJson v) :
    safeJsonParse (printJson pretty 0 v) = .ok v := by
  have hg : (jsTrim (printJson pretty 0 v)).isEmpty = false :=
    jsTrim_goodHead (printJson_goodHead pretty 0 v hWF)
  rw [safeJsonParse, hg, if_neg (by decide), jsonParse_print pretty v hWF]

theorem safeJsonParse_WF {t : JStr} {v : Json}
    (h : safeJsonParse t = .ok v) : WFJson v := by
  rw [safeJsonParse] at h
  split_ifs at h with h0
  · injection h with hv
    subst hv
    exact WFJson.null
  · split at h
    · rename_i v1 heq
      injection h with hv
      subst hv
      rw [jsonParse] at heq
      split at heq
      · rename_i v2 r2 heqp
        split_ifs at heq with h2
        injection heq with hv2
        subst hv2
        exact (parse_WF _).1 _ _ _ heqp
      · exact Option.noConfusion heq
    · exact ParseResult.noConfusion h

/-- C7: `formatJson` and `minifyJson` are idempotent on valid JSON text:
whenever a first application succeeds with output `y`, applying the same
operation to `y` succeeds and returns `y` unchanged. -/
theorem format_minify_idempotent :
    (∀ x y, formatJson x = .ok y → formatJson y = .ok y) ∧
    (∀ x y, minifyJson x = .ok y → minifyJson y = .ok y) := by
  constructor
  · intro x y h
    rw [formatJson] at h
    split at h
    · exact FormatResult.noConfusion h
    · rename_i v heq
      injection h with hy
      subst hy
      rw [formatJson, safeJsonParse_print true v (safeJsonParse_WF heq)]
  · intro x y h
    rw [minifyJson] at h
    split at h
    · exact FormatResult.noConfusion h
    · rename_i v heq
      injection h with hy
      subst hy
      rw [minifyJson, safeJsonParse_print false v (safeJsonParse_WF heq)]

theorem format_minify_idempotent_witness :
    formatJson "[]".data = FormatResult.ok "[]".data ∧
    minifyJson "[]".data = FormatResult.ok "[]".data :=
  ⟨format_minify_idempotent.1 "[ ]".data "[]".data (by decide),
   format_minify_idempotent.2 "[ ]".data "[]".data (by decide)⟩

/-- C8: empty or whitespace-only input parses successfully to a null value,
while any other text the JSON parser rejects yields the error result
carrying the parser diagnostic. -/
theorem empty_input_parse :
    safeJsonParse "".data = .ok .null ∧
    safeJsonParse "   ".data = .ok .null ∧
    (∀ t, (jsTrim t).isEmpty = false → jsonParse t = none →
      safeJsonParse t = .err (parseErrorMsg t)) := by
  refine ⟨by rfl, by rfl, ?_⟩
  intro t h1 h2
  rw [safeJsonParse, h1, if_neg (by decide), h2]

theorem empty_input_parse_witness :
    (jsTrim "[".data).isEmpty = false ∧ jsonParse "[".data = none ∧
    safeJsonParse "[".data = .err (parseErrorMsg "[".data) :=
  ⟨by rfl, by rfl, empty_input_parse.2.2 "[".data (by rfl) (by rfl)⟩

end JsonViewer
